import Mathlib

/-!
# Verification of the filesizelib exact-precision value engine

Shallow embedding of `src/filesizelib/core.py` (classes `StorageValue`,
`ConversionEngine`, `StringParser`, `ArithmeticEngine`, `PerformanceManager`).

Modelling notes.

* Python `decimal.Decimal` values are modelled by `ℚ`.  The module sets
  `getcontext().prec = 50`, so every context arithmetic operation (`+`, `-`,
  `*`, `/`) returns the exact rational result rounded to 50 significant
  decimal digits with the default rounding mode `ROUND_HALF_EVEN`; this is
  modelled by `ctxRound` below.  `Decimal` construction from a string or an
  int is exact (never context-rounded), as in Python.  The context's exponent
  bounds (`Emax`/`Emin`, default about `10^6`) are not modelled: every value
  reachable in the claims is far inside them.
* Python `//` and `%` on `Decimal` truncate toward zero and raise
  `InvalidOperation` (`DivisionImpossible`) when the integer quotient needs
  more than `prec` digits; both behaviours are modelled.
* The unit enum `storage_unit.py` is not part of the given sources; the
  closed unit set, the byte multipliers and the alias table are modelled
  from the spec (see `StorageUnit` below).
-/

/-! ## Definitions: the embedded program -/

/-- Fuelled digit count of `n` in base `B` (the fuel only bounds recursion
depth; `lenAux B n n` is the real digit count for `n > 0`). -/
def lenAux (B : ℕ) : ℕ → ℕ → ℕ
  | 0, _ => 1
  | f + 1, n => if n < B then 1 else lenAux B f (n / B) + 1

/-- Number of base-`B` digits of `n` (for `n > 0`). -/
def blen (B n : ℕ) : ℕ := lenAux B n n

/-- Integer power of `B` as a rational, with an integer exponent. -/
def bpow (B : ℕ) (e : ℤ) : ℚ :=
  if 0 ≤ e then ((B ^ e.toNat : ℕ) : ℚ) else ((B ^ (-e).toNat : ℕ) : ℚ)⁻¹

/-- Raw base-`B` exponent estimate of a nonzero rational, from digit counts
of numerator and denominator. -/
def bexpRaw (B : ℕ) (q : ℚ) : ℤ :=
  (blen B q.num.natAbs : ℤ) - (blen B q.den : ℤ)

/-- Base-`B` exponent of a nonzero rational: the unique `e` with
`B^e ≤ |q| < B^(e+1)`. -/
def bexp (B : ℕ) (q : ℚ) : ℤ :=
  if |q| < bpow B (bexpRaw B q) then bexpRaw B q - 1 else bexpRaw B q

/-- Round a rational to the nearest integer, ties to even. -/
def rnd (x : ℚ) : ℤ :=
  if x - ⌊x⌋ < 1/2 then ⌊x⌋
  else if 1/2 < x - ⌊x⌋ then ⌊x⌋ + 1
  else if ⌊x⌋ % 2 = 0 then ⌊x⌋ else ⌊x⌋ + 1

/-- Round `q` to `p` significant base-`B` digits, half-even (the General
Decimal Arithmetic context rounding applied to an exact intermediate
result). -/
def roundSig (B p : ℕ) (q : ℚ) : ℚ :=
  if q = 0 then 0
  else (rnd (q * bpow B ((p : ℤ) - 1 - bexp B q)) : ℚ) * bpow B (bexp B q - ((p : ℤ) - 1))

/-- Rounding of every arithmetic result in the `filesizelib.core` decimal
context: `getcontext().prec = 50`, `ROUND_HALF_EVEN`. -/
def ctxRound (q : ℚ) : ℚ := roundSig 10 50 q

/-- Round a rational to the nearest IEEE-754 binary64 value (round to
nearest, ties to even; subnormals included, overflow not modelled since no
claim involves values near `2^1024`). -/
def roundToDouble (q : ℚ) : ℚ :=
  if q = 0 then 0
  else if bexp 2 q < -1022 then (rnd (q * bpow 2 1074) : ℚ) * bpow 2 (-1074)
  else roundSig 2 53 q

/-- Decimal rationals: those with a finite decimal expansion.  `q.den`
divides `10^q.den` exactly when the reduced denominator has only the
factors 2 and 5. -/
def isDecimalRat (q : ℚ) : Prop := q.den ∣ 10 ^ q.den

instance (q : ℚ) : Decidable (isDecimalRat q) := by
  unfold isDecimalRat
  infer_instance

/-- Fuelled removal of trailing zeros of a natural number. -/
def stripZeros : ℕ → ℕ → ℕ
  | 0, n => n
  | f + 1, n => if n ≠ 0 ∧ n % 10 = 0 then stripZeros f (n / 10) else n

/-- Number of significant digits of a natural number (0 for 0). -/
def sigDigits (n : ℕ) : ℕ := if n = 0 then 0 else blen 10 (stripZeros n n)

/-- The integer scaling of a decimal rational by `10^q.den` (supposing
`isDecimalRat q`), used to count its significant decimal digits. -/
def decScaled (q : ℚ) : ℕ := q.num.natAbs * (10 ^ q.den / q.den)

/-- Number of significant decimal digits of a decimal rational. -/
def decDigits (q : ℚ) : ℕ := sigDigits (decScaled q)

/-- Modelled from the spec (and CPython's float repr contract): `str(f)` for
a finite float `f` prints the shortest decimal literal that reads back to
exactly `f`.  A finite float is therefore modelled as its exact binary value
`b` together with the decimal reading `r` of its repr: `r` rounds to `b`
and no decimal with fewer significant digits does. -/
def floatReprSpec (b r : ℚ) : Prop :=
  roundToDouble r = b ∧ isDecimalRat r ∧
    ∀ r' : ℚ, isDecimalRat r' → decDigits r' < decDigits r → roundToDouble r' ≠ b

/-- Modelled from the spec: the closed unit set of the external unit enum
`storage_unit.py` (not included under `src/`): binary multiples of 1024
(BYTES..YIB), decimal multiples of 1000 (KB..YB), and bit units (1 bit =
0.125 byte, with decimal and binary multiples). -/
inductive StorageUnit
  | BYTES | KIB | MIB | GIB | TIB | PIB | EIB | ZIB | YIB
  | KB | MB | GB | TB | PB | EB | ZB | YB
  | BITS | KILOBITS | MEGABITS | GIGABITS | TERABITS
  | KIBITS | MIBITS | GIBITS | TIBITS
  deriving DecidableEq

/-- Modelled from the spec: the exact byte multiplier of each unit
(`unit.value` in the source; every multiplier is strictly positive, and
`Decimal(str(unit.value))` reads it exactly). -/
def StorageUnit.multiplier : StorageUnit → ℚ
  | .BYTES => 1
  | .KIB => 1024
  | .MIB => 1024 ^ 2
  | .GIB => 1024 ^ 3
  | .TIB => 1024 ^ 4
  | .PIB => 1024 ^ 5
  | .EIB => 1024 ^ 6
  | .ZIB => 1024 ^ 7
  | .YIB => 1024 ^ 8
  | .KB => 1000
  | .MB => 1000 ^ 2
  | .GB => 1000 ^ 3
  | .TB => 1000 ^ 4
  | .PB => 1000 ^ 5
  | .EB => 1000 ^ 6
  | .ZB => 1000 ^ 7
  | .YB => 1000 ^ 8
  | .BITS => 1 / 8
  | .KILOBITS => 125
  | .MEGABITS => 125000
  | .GIGABITS => 125000000
  | .TERABITS => 125000000000
  | .KIBITS => 128
  | .MIBITS => 128 * 1024
  | .GIBITS => 128 * 1024 ^ 2
  | .TIBITS => 128 * 1024 ^ 3

/-- Modelled from the spec: the lowercase alias table
(`StorageUnit.get_unit_aliases()` of the external enum).  Alias resolution
is case-insensitive (the parser lowercases before lookup) and many-to-one;
the empty token is not an alias. -/
def unitAliases : List (List Char × StorageUnit) :=
  [ ("bytes".toList, .BYTES), ("byte".toList, .BYTES), ("b".toList, .BYTES)
  , ("kib".toList, .KIB), ("kibibyte".toList, .KIB), ("kibibytes".toList, .KIB)
  , ("mib".toList, .MIB), ("mebibyte".toList, .MIB), ("mebibytes".toList, .MIB)
  , ("gib".toList, .GIB), ("gibibyte".toList, .GIB), ("gibibytes".toList, .GIB)
  , ("tib".toList, .TIB), ("pib".toList, .PIB), ("eib".toList, .EIB)
  , ("zib".toList, .ZIB), ("yib".toList, .YIB)
  , ("kb".toList, .KB), ("kilobyte".toList, .KB), ("kilobytes".toList, .KB)
  , ("mb".toList, .MB), ("megabyte".toList, .MB), ("megabytes".toList, .MB)
  , ("gb".toList, .GB), ("gigabyte".toList, .GB), ("gigabytes".toList, .GB)
  , ("tb".toList, .TB), ("pb".toList, .PB), ("eb".toList, .EB)
  , ("zb".toList, .ZB), ("yb".toList, .YB)
  , ("bits".toList, .BITS), ("bit".toList, .BITS)
  , ("kilobits".toList, .KILOBITS), ("megabits".toList, .MEGABITS)
  , ("gigabits".toList, .GIGABITS), ("terabits".toList, .TERABITS)
  , ("kibits".toList, .KIBITS), ("mibits".toList, .MIBITS)
  , ("gibits".toList, .GIBITS), ("tibits".toList, .TIBITS) ]

/-- Alias lookup (`self._unit_aliases.get(unit_str.lower(), default)` keys). -/
def aliasLookup (tok : List Char) : Option StorageUnit :=
  (unitAliases.find? (fun p => p.1 == tok)).map (·.2)

/-- Error outcomes of the embedded operations, one constructor per `raise`
site (or runtime-raised exception) reachable in `core.py`. -/
inductive PyErr
  /-- `TypeError`: unsupported operand comparison `str < int` raised by
  `value < 0` at core.py:68 when `value` is a string. -/
  | typeErr
  /-- `ValueError` at core.py:69 — "Storage value cannot be negative". -/
  | negativeValue
  /-- `ValueError` at core.py:74 — "Storage value must be finite". -/
  | nonFiniteFloat
  /-- `decimal.InvalidOperation`: ordered comparison of a (signalling)
  `Decimal('NaN')` against `0` at core.py:68. -/
  | invalidOperation
  /-- `ValueError` at core.py:377 — "Input string cannot be empty". -/
  | emptyInput
  /-- `ValueError` at core.py:392 — "Invalid format: ...". -/
  | invalidFormat
  /-- `ValueError` at core.py:585/594 — subtraction result negative. -/
  | negativeResult
  /-- `ValueError` at core.py:623 — negative multiplication factor. -/
  | negativeFactor
  /-- `ValueError` at core.py:659/729/765 — "Divisor must be positive". -/
  | nonPositiveDivisor
  /-- `decimal.InvalidOperation` (`DivisionImpossible`): the integer
  quotient of `//` or `%` needs more than `prec = 50` digits. -/
  | divisionImpossible
  /-- `StopIteration` from `next(iter({}))` when the decimal cache evicts
  from an empty dict (only possible with `max_cache_size = 0`). -/
  | stopIteration
  deriving DecidableEq

/-- A Python `decimal.Decimal` (construction accepts non-finite values). -/
inductive PyDec
  | fin (q : ℚ)
  | inf
  | ninf
  | nan
  deriving DecidableEq

/-- A Python `float`: either finite — its exact binary value `b` together
with the decimal reading `r` of `str(f)` (see `floatReprSpec`) — or one of
the non-finite values. -/
inductive PyFloat
  | finite (b r : ℚ) (h : floatReprSpec b r)
  | inf
  | ninf
  | nan

/-- The accepted input union of `StorageValue.__init__`:
`Union[int, float, str, Decimal]`. -/
inductive PyValue
  | pint (n : ℤ)
  | pfloat (f : PyFloat)
  | pstr (s : List Char)
  | pdec (d : PyDec)

/-- Python semantics of the comparison `value < 0` at core.py:68, per input
type: numbers compare by value (`nan < 0` is `False`), a `str` raises
`TypeError` ('<' not supported between str and int), and a `Decimal` NaN
raises `decimal.InvalidOperation` (ordered comparisons with NaN signal). -/
def pyLtZero : PyValue → Except PyErr Bool
  | .pint n => .ok (decide (n < 0))
  | .pfloat (.finite b _ _) => .ok (decide (b < 0))
  | .pfloat .inf => .ok false
  | .pfloat .ninf => .ok true
  | .pfloat .nan => .ok false
  | .pstr _ => .error .typeErr
  | .pdec (.fin q) => .ok (decide (q < 0))
  | .pdec .inf => .ok false
  | .pdec .ninf => .ok true
  | .pdec .nan => .error .invalidOperation

/-- Result of the full-fidelity constructor: the stored `Decimal` (which
can be non-finite, see C1) and the unit. -/
structure SVx where
  decimal_value : PyDec
  unit : StorageUnit

/-- `StorageValue.__init__` (core.py:48-87), translated line by line: the
`value < 0` check runs before the type dispatch; a float is converted via
`Decimal(str(value))` after a finiteness check; int and Decimal inputs are
stored exactly (`Decimal(value)`); the string branch at core.py:79-83 is
unreachable because `value < 0` already raised `TypeError` for strings.
The `isinstance(unit, StorageUnit)` guard is enforced by typing. -/
def StorageValue.init (value : PyValue) (unit : StorageUnit) : Except PyErr SVx :=
  match pyLtZero value with
  | .error e => .error e
  | .ok true => .error .negativeValue
  | .ok false =>
    match value with
    | .pfloat (.finite _ r _) => .ok ⟨.fin r, unit⟩
    | .pfloat _ => .error .nonFiniteFloat
    | .pint n => .ok ⟨.fin (n : ℚ), unit⟩
    | .pdec d => .ok ⟨d, unit⟩
    | .pstr _ => .error .typeErr

/-- A `StorageValue` holding a finite decimal (every value produced by the
conversion and arithmetic engines is of this shape). -/
structure SV where
  decimal_value : ℚ
  unit : StorageUnit
  deriving DecidableEq

/-- Construction of a result `StorageValue(q, u)` for an already-`Decimal`
finite `q`: only the `value < 0` check at core.py:68 can fail. -/
def mkSV (q : ℚ) (u : StorageUnit) : Except PyErr SV :=
  if q < 0 then .error .negativeValue else .ok ⟨q, u⟩

/-- `StorageValue.to_bytes` (core.py:89-101):
`self.decimal_value * Decimal(str(self.unit.value))`, a context multiply. -/
def SV.to_bytes (v : SV) : ℚ := ctxRound (v.decimal_value * v.unit.multiplier)

/-- `StorageValue.to_unit` (core.py:103-122): identity short-circuit when
`unit == target_unit`, otherwise a context division of `to_bytes()`. -/
def SV.to_unit (v : SV) (target : StorageUnit) : ℚ :=
  if v.unit = target then v.decimal_value
  else ctxRound (v.to_bytes / target.multiplier)

/-- `ConversionEngine.convert_to` (core.py:177-214).  The per-instance memo
cache (`self._conversion_cache`) is not modelled: the engine is bound to one
immutable value, the conversion is deterministic, and the memo only ever
stores the value that the computation below returns, so it is
observationally transparent. -/
def ConversionEngine.convert_to (v : SV) (target : StorageUnit) : Except PyErr SV :=
  if v.unit = target then .ok v
  else mkSV (ctxRound (v.to_bytes / target.multiplier)) target

/-- `ArithmeticEngine.add` (core.py:520-554). -/
def ArithmeticEngine.add (l r : SV) : Except PyErr SV :=
  if l.unit = r.unit then mkSV (ctxRound (l.decimal_value + r.decimal_value)) l.unit
  else mkSV (ctxRound (l.to_bytes + r.to_bytes)) .BYTES

/-- `ArithmeticEngine.subtract` (core.py:556-596). -/
def ArithmeticEngine.subtract (l r : SV) : Except PyErr SV :=
  if l.unit = r.unit then
    let d := ctxRound (l.decimal_value - r.decimal_value)
    if d < 0 then .error .negativeResult else mkSV d l.unit
  else
    let db := ctxRound (l.to_bytes - r.to_bytes)
    if db < 0 then .error .negativeResult else mkSV db .BYTES

/-- The numeric operand union `Union[int, float, Decimal]` of the
arithmetic engine's scalar operations.  Non-finite floats and decimals are
outside the modelled domain (no claim constrains them). -/
inductive PyNum
  | nint (n : ℤ)
  | nfloat (b r : ℚ) (h : floatReprSpec b r)
  | ndec (q : ℚ)

/-- The value Python's order comparison (`factor < 0`, `divisor <= 0`)
sees: for a float, its exact binary value. -/
def PyNum.val : PyNum → ℚ
  | .nint n => (n : ℚ)
  | .nfloat b _ _ => b
  | .ndec q => q

/-- The `Decimal` the arithmetic is then performed with: for a float this
is `Decimal(str(factor))`, the decimal reading of its repr. -/
def PyNum.toDec : PyNum → ℚ
  | .nint n => (n : ℚ)
  | .nfloat _ r _ => r
  | .ndec q => q

/-- `ArithmeticEngine.multiply` (core.py:598-632). -/
def ArithmeticEngine.multiply (l : SV) (factor : PyNum) : Except PyErr SV :=
  if factor.val < 0 then .error .negativeFactor
  else mkSV (ctxRound (l.decimal_value * factor.toDec)) l.unit

/-- `ArithmeticEngine.divide` (core.py:634-668): decimal context division is
the correctly rounded (half-even, 50 significant digits) exact quotient. -/
def ArithmeticEngine.divide (l : SV) (divisor : PyNum) : Except PyErr SV :=
  if divisor.val ≤ 0 then .error .nonPositiveDivisor
  else mkSV (ctxRound (l.decimal_value / divisor.toDec)) l.unit

/-- Truncation toward zero, the integer part used by `Decimal.__floordiv__`
and `Decimal.__mod__`. -/
def pytrunc (q : ℚ) : ℤ := Int.tdiv q.num (q.den : ℤ)

/-- `ArithmeticEngine.floor_divide` (core.py:704-738).  `Decimal` floor
division returns the toward-zero integer part of the quotient and raises
`InvalidOperation` (`DivisionImpossible`) when that integer needs more than
`prec = 50` digits. -/
def ArithmeticEngine.floor_divide (l : SV) (divisor : PyNum) : Except PyErr SV :=
  if divisor.val ≤ 0 then .error .nonPositiveDivisor
  else
    let i := pytrunc (l.decimal_value / divisor.toDec)
    if 10 ^ 50 ≤ i.natAbs then .error .divisionImpossible
    else mkSV (i : ℚ) l.unit

/-- `ArithmeticEngine.modulo` (core.py:740-774).  `Decimal` remainder is
exact (`self - trunc(self/other) * other`, never context-rounded) and fails
under the same `DivisionImpossible` condition as floor division. -/
def ArithmeticEngine.modulo (l : SV) (divisor : PyNum) : Except PyErr SV :=
  if divisor.val ≤ 0 then .error .nonPositiveDivisor
  else
    let i := pytrunc (l.decimal_value / divisor.toDec)
    if 10 ^ 50 ≤ i.natAbs then .error .divisionImpossible
    else mkSV (l.decimal_value - (i : ℚ) * divisor.toDec) l.unit

/-- Python `\s` (ASCII range): space, tab, newline, carriage return,
vertical tab, form feed. -/
def pyIsSpace (c : Char) : Bool :=
  c == ' ' || c == '\t' || c == '\n' || c == '\r' || c == '\x0b' || c == '\x0c'

/-- `str.lower()` on the ASCII letters (claim inputs are ASCII). -/
def toLowerChar (c : Char) : Char :=
  if 'A' ≤ c ∧ c ≤ 'Z' then Char.ofNat (c.toNat + 32) else c

/-- `str.replace(',', '.')` character map. -/
def commaToDot (c : Char) : Char := if c = ',' then '.' else c

/-- `str.strip()`: remove leading and trailing whitespace. -/
def pyStrip (l : List Char) : List Char :=
  ((l.dropWhile pyIsSpace).reverse.dropWhile pyIsSpace).reverse

/-- A character of the numeric token: digit or dot. -/
def isNumChar (c : Char) : Bool := c.isDigit || c == '.'

/-- An ASCII lowercase letter (`[a-z]`; the input is already lowercased, so
`re.IGNORECASE` adds nothing). -/
def isLowerAlpha (c : Char) : Bool := 'a' ≤ c && c ≤ 'z'

/-- Whether the last character of the token is a digit (`[0-9]+` must close
group 1). -/
def lastIsDigit (l : List Char) : Bool :=
  match l.getLast? with
  | some c => c.isDigit
  | none => false

/-- The compiled pattern `^([0-9]*\.?[0-9]+)\s*([a-z]*)$` of
`StringParser.__init__` (core.py:327), applied to the normalized string.
Greedy matching makes the decomposition unique: group 1 is the maximal
prefix of digits and dots — which must be nonempty, contain at most one dot
and end in a digit — and after optional whitespace the rest must consist of
letters only.  Returns `(group1, group2)` on a match. -/
def matchStorage (l : List Char) : Option (List Char × List Char) :=
  let numTok := l.takeWhile isNumChar
  let rest := l.dropWhile isNumChar
  let unitTok := rest.dropWhile pyIsSpace
  if numTok = [] then none
  else if 1 < numTok.count '.' then none
  else if lastIsDigit numTok then
    if unitTok.all isLowerAlpha then some (numTok, unitTok) else none
  else none

/-- Value of a digit list read in base 10. -/
def digitsToNat (l : List Char) : ℕ :=
  l.foldl (fun acc c => 10 * acc + (c.toNat - '0'.toNat)) 0

/-- `Decimal(value_str)` on a token matching `[0-9]*\.?[0-9]+`: the exact
rational it denotes.  (On such tokens the `Decimal` constructor never
raises, so the `try/except` at core.py:398-401 has no reachable failure.) -/
def decLitVal (l : List Char) : ℚ :=
  let intPart := l.takeWhile (fun c => c != '.')
  let fracPart := (l.dropWhile (fun c => c != '.')).drop 1
  (digitsToNat intPart : ℚ) + (digitsToNat fracPart : ℚ) / 10 ^ fracPart.length

/-- `StringParser.parse` (core.py:330-406) on a string input: empty check,
normalization (strip, lowercase, comma to dot), pattern match, decimal
reading of group 1, alias lookup of group 2 with silent fallback to
`default_unit` (or BYTES).  The `TypeError` branch for non-`str` input is
enforced by typing. -/
def StringParser.parse (s : List Char) (default_unit : Option StorageUnit) :
    Except PyErr (ℚ × StorageUnit) :=
  if pyStrip s = [] then .error .emptyInput
  else
    let d := default_unit.getD .BYTES
    let normalized := ((pyStrip s).map toLowerChar).map commaToDot
    match matchStorage normalized with
    | none => .error .invalidFormat
    | some (numTok, unitTok) => .ok (decLitVal numTok, (aliasLookup unitTok).getD d)

/-- Association-list view of the insertion-ordered Python dict
`self._decimal_cache`: oldest entry first; `next(iter(dict))` is the head.
The hit/miss statistics counters and the `RLock` are not modelled (the
claims are about entry counts and order; the lock serialises each call). -/
structure PerformanceManager where
  max_cache_size : ℕ
  decimal_cache : List (List Char × ℚ)
  deriving DecidableEq

/-- `PerformanceManager.__init__` (core.py:798-817). -/
def PerformanceManager.mk0 (max_cache_size : ℕ) : PerformanceManager :=
  ⟨max_cache_size, []⟩

/-- Ordered-dict lookup `value_str in self._decimal_cache`. -/
def lookupKV : List (List Char × ℚ) → List Char → Option ℚ
  | [], _ => none
  | (k, v) :: rest, s => if k = s then some v else lookupKV rest s

/-- `PerformanceManager.get_cached_decimal` (core.py:819-854), parametrised
by the pure parse function `parseDec` standing for `Decimal(value_str)` on
valid literals.  On a hit the state is unchanged (the dict is not
reordered: FIFO, not LRU).  On a miss the literal is parsed; if the cache
is full the oldest entry (dict head) is deleted — `next(iter({}))` on an
empty full cache (capacity 0) raises `StopIteration` before any insertion —
then the new entry is appended. -/
def PerformanceManager.get_cached_decimal (parseDec : List Char → ℚ)
    (st : PerformanceManager) (value_str : List Char) :
    Except PyErr (PerformanceManager × ℚ) :=
  match lookupKV st.decimal_cache value_str with
  | some v => .ok (st, v)
  | none =>
      let v := parseDec value_str
      if st.max_cache_size ≤ st.decimal_cache.length then
        match st.decimal_cache with
        | [] => .error .stopIteration
        | _ :: rest => .ok (⟨st.max_cache_size, rest ++ [(value_str, v)]⟩, v)
      else .ok (⟨st.max_cache_size, st.decimal_cache ++ [(value_str, v)]⟩, v)

/-- A sequence of `get_cached_decimal` calls; an exception leaves the state
unchanged (the raise happens before any mutation). -/
def runSeq (parseDec : List Char → ℚ) (st : PerformanceManager) :
    List (List Char) → PerformanceManager
  | [] => st
  | s :: rest =>
      match PerformanceManager.get_cached_decimal parseDec st s with
      | .ok (st', _) => runSeq parseDec st' rest
      | .error _ => runSeq parseDec st rest

/-- Keys of the cache, oldest first. -/
def cacheKeys (st : PerformanceManager) : List (List Char) :=
  st.decimal_cache.map Prod.fst

/-! ## Theorems -/

theorem lenAux_pos (B : ℕ) : ∀ f n, 1 ≤ lenAux B f n := by
  intro f
  induction f with
  | zero => intro n; simp [lenAux]
  | succ f ih =>
      intro n
      by_cases h : n < B
      · simp [lenAux, h]
      · simp only [lenAux, if_neg h]
        exact Nat.le_add_left 1 _

theorem lenAux_spec (B : ℕ) (hB : 2 ≤ B) :
    ∀ f n, 0 < n → n ≤ f → B ^ (lenAux B f n - 1) ≤ n ∧ n < B ^ lenAux B f n := by
  intro f
  induction f with
  | zero => intro n h1 h2; omega
  | succ f ih =>
      intro n hn hnf
      by_cases h : n < B
      · simp only [lenAux, if_pos h]
        constructor
        · simpa using hn
        · simpa using h
      · simp only [lenAux, if_neg h]
        push_neg at h
        have hm : 0 < n / B := Nat.div_pos h (by omega)
        have hmf : n / B ≤ f := by
          have h1 : n / B < n := Nat.div_lt_self hn (by omega)
          omega
        obtain ⟨hl, hr⟩ := ih (n / B) hm hmf
        have hlen := lenAux_pos B f (n / B)
        constructor
        · have : B ^ (lenAux B f (n / B) + 1 - 1) = B * B ^ (lenAux B f (n / B) - 1) := by
            have : lenAux B f (n / B) + 1 - 1 = (lenAux B f (n / B) - 1) + 1 := by omega
            rw [this, pow_succ]; ring
          rw [this]
          calc B * B ^ (lenAux B f (n / B) - 1) ≤ B * (n / B) := by
                exact Nat.mul_le_mul_left B hl
            _ ≤ n := Nat.mul_div_le n B
        · have h1 : n < B * (n / B + 1) := by
            have hdm := Nat.div_add_mod n B
            have hmod : n % B < B := Nat.mod_lt n (by omega)
            have hk : B * (n / B + 1) = B * (n / B) + B := by ring
            omega
          calc n < B * (n / B + 1) := h1
            _ ≤ B * B ^ lenAux B f (n / B) := by
                exact Nat.mul_le_mul_left B hr
            _ = B ^ (lenAux B f (n / B) + 1) := by rw [pow_succ]; ring

theorem blen_spec (B n : ℕ) (hB : 2 ≤ B) (hn : 0 < n) :
    B ^ (blen B n - 1) ≤ n ∧ n < B ^ blen B n :=
  lenAux_spec B hB n n hn le_rfl

theorem bpow_eq_zpow (B : ℕ) (hB : 0 < B) (e : ℤ) : bpow B e = (B : ℚ) ^ e := by
  unfold bpow
  by_cases h : 0 ≤ e
  · rw [if_pos h]
    push_cast
    rw [← zpow_natCast]
    congr 1
    omega
  · rw [if_neg h]
    push_cast
    rw [← zpow_natCast, ← zpow_neg]
    congr 1
    omega

theorem bpow_pos (B : ℕ) (hB : 0 < B) (e : ℤ) : 0 < bpow B e := by
  rw [bpow_eq_zpow B hB]
  exact zpow_pos (by exact_mod_cast hB) e

theorem bpow_ne_zero (B : ℕ) (hB : 0 < B) (e : ℤ) : bpow B e ≠ 0 :=
  ne_of_gt (bpow_pos B hB e)

theorem bpow_add (B : ℕ) (hB : 0 < B) (a b : ℤ) :
    bpow B (a + b) = bpow B a * bpow B b := by
  rw [bpow_eq_zpow B hB, bpow_eq_zpow B hB, bpow_eq_zpow B hB]
  exact zpow_add₀ (by exact_mod_cast hB.ne') a b

theorem bpow_lt_bpow (B : ℕ) (hB : 2 ≤ B) {a b : ℤ} (h : a < b) :
    bpow B a < bpow B b := by
  rw [bpow_eq_zpow B (by omega), bpow_eq_zpow B (by omega)]
  exact zpow_lt_zpow_right₀ (by exact_mod_cast hB) h

theorem bpow_lt_bpow_iff (B : ℕ) (hB : 2 ≤ B) {a b : ℤ} :
    bpow B a < bpow B b ↔ a < b := by
  constructor
  · intro h
    by_contra hc
    push_neg at hc
    rcases eq_or_lt_of_le hc with h1 | h1
    · rw [h1] at h; exact lt_irrefl _ h
    · exact absurd (bpow_lt_bpow B hB h1) (not_lt.mpr (le_of_lt h))
  · exact bpow_lt_bpow B hB

theorem bpow_le_bpow (B : ℕ) (hB : 2 ≤ B) {a b : ℤ} (h : a ≤ b) :
    bpow B a ≤ bpow B b := by
  rcases eq_or_lt_of_le h with h1 | h1
  · rw [h1]
  · exact le_of_lt (bpow_lt_bpow B hB h1)

theorem abs_eq_natAbs_div_den (q : ℚ) :
    |q| = ((q.num.natAbs : ℚ)) / ((q.den : ℚ)) := by
  have hden : (0 : ℚ) < (q.den : ℚ) := by exact_mod_cast q.pos
  conv_lhs => rw [← Rat.num_div_den q]
  rw [abs_div, abs_of_pos hden, Int.cast_natAbs, Int.cast_abs]

theorem zpow_natSub (B : ℕ) (hB : 2 ≤ B) (d : ℕ) (hd : 1 ≤ d) :
    (B : ℚ) ^ ((d : ℤ) - 1) = ((B ^ (d - 1) : ℕ) : ℚ) := by
  have : (d : ℤ) - 1 = ((d - 1 : ℕ) : ℤ) := by omega
  rw [this, zpow_natCast]
  push_cast
  ring

theorem bexp_spec (B : ℕ) (hB : 2 ≤ B) (q : ℚ) (hq : q ≠ 0) :
    bpow B (bexp B q) ≤ |q| ∧ |q| < bpow B (bexp B q + 1) := by
  have hBQ : (1 : ℚ) < (B : ℚ) := by exact_mod_cast hB
  have hB0 : (0 : ℚ) < (B : ℚ) := by linarith
  have hden : (0 : ℚ) < (q.den : ℚ) := by exact_mod_cast q.pos
  have ha : 0 < q.num.natAbs := Int.natAbs_pos.mpr (Rat.num_ne_zero.mpr hq)
  set a := q.num.natAbs with ha_def
  set d := q.den with hd_def
  obtain ⟨la, ra⟩ := blen_spec B a hB ha
  obtain ⟨ld, rd⟩ := blen_spec B d hB q.pos
  have hla : 1 ≤ blen B a := lenAux_pos B a a
  have hld : 1 ≤ blen B d := lenAux_pos B d d
  have habs : |q| = (a : ℚ) / (d : ℚ) := abs_eq_natAbs_div_den q
  -- digit bounds cast to ℚ
  have hA1 : (B : ℚ) ^ ((blen B a : ℤ) - 1) ≤ (a : ℚ) := by
    rw [zpow_natSub B hB _ hla]; exact_mod_cast la
  have hA2 : (a : ℚ) < (B : ℚ) ^ (blen B a : ℤ) := by
    rw [zpow_natCast]; exact_mod_cast ra
  have hD1 : (B : ℚ) ^ ((blen B d : ℤ) - 1) ≤ (d : ℚ) := by
    rw [zpow_natSub B hB _ hld]; exact_mod_cast ld
  have hD2 : (d : ℚ) < (B : ℚ) ^ (blen B d : ℤ) := by
    rw [zpow_natCast]; exact_mod_cast rd
  have hBne : (B : ℚ) ≠ 0 := ne_of_gt hB0
  have key_low : bpow B (bexpRaw B q - 1) < |q| := by
    rw [habs, bpow_eq_zpow B (by omega)]
    have hexp : (B : ℚ) ^ (bexpRaw B q - 1) =
        (B : ℚ) ^ ((blen B a : ℤ) - 1) / (B : ℚ) ^ (blen B d : ℤ) := by
      rw [← zpow_sub₀ hBne]
      congr 1
      unfold bexpRaw
      rw [← ha_def, ← hd_def]
      ring
    rw [hexp, div_lt_div_iff (zpow_pos hB0 _) hden]
    calc (B : ℚ) ^ ((blen B a : ℤ) - 1) * (d : ℚ)
        < (B : ℚ) ^ ((blen B a : ℤ) - 1) * (B : ℚ) ^ (blen B d : ℤ) := by
          exact mul_lt_mul_of_pos_left hD2 (zpow_pos hB0 _)
      _ ≤ (a : ℚ) * (B : ℚ) ^ (blen B d : ℤ) := by
          exact mul_le_mul_of_nonneg_right hA1 (le_of_lt (zpow_pos hB0 _))
  have key_high : |q| < bpow B (bexpRaw B q + 1) := by
    rw [habs, bpow_eq_zpow B (by omega)]
    have hexp : (B : ℚ) ^ (bexpRaw B q + 1) =
        (B : ℚ) ^ (blen B a : ℤ) / (B : ℚ) ^ ((blen B d : ℤ) - 1) := by
      rw [← zpow_sub₀ hBne]
      congr 1
      unfold bexpRaw
      rw [← ha_def, ← hd_def]
      ring
    rw [hexp, div_lt_div_iff hden (zpow_pos hB0 _)]
    calc (a : ℚ) * (B : ℚ) ^ ((blen B d : ℤ) - 1)
        ≤ (a : ℚ) * (d : ℚ) := by
          exact mul_le_mul_of_nonneg_left hD1 (by positivity)
      _ < (B : ℚ) ^ (blen B a : ℤ) * (d : ℚ) := by
          exact mul_lt_mul_of_pos_right hA2 hden
  unfold bexp
  by_cases h : |q| < bpow B (bexpRaw B q)
  · rw [if_pos h]
    constructor
    · have : bexpRaw B q - 1 + 1 = bexpRaw B q := by ring
      exact le_of_lt key_low
    · have he : bexpRaw B q - 1 + 1 = bexpRaw B q := by ring
      rw [he]; exact h
  · rw [if_neg h]
    exact ⟨not_lt.mp h, key_high⟩

theorem bexp_eq (B : ℕ) (hB : 2 ≤ B) (q : ℚ) (hq : q ≠ 0) (e : ℤ)
    (h1 : bpow B e ≤ |q|) (h2 : |q| < bpow B (e + 1)) : bexp B q = e := by
  obtain ⟨hs1, hs2⟩ := bexp_spec B hB q hq
  by_contra hne
  rcases lt_or_gt_of_ne hne with h | h
  · have hle : bexp B q + 1 ≤ e := by omega
    have := bpow_le_bpow B hB hle
    linarith
  · have hle : e + 1 ≤ bexp B q := by omega
    have := bpow_le_bpow B hB hle
    linarith

theorem rnd_intCast (n : ℤ) : rnd (n : ℚ) = n := by
  simp [rnd]

theorem rnd_nonneg {x : ℚ} (h : 0 ≤ x) : 0 ≤ rnd x := by
  have hf : (0 : ℤ) ≤ ⌊x⌋ := Int.floor_nonneg.mpr h
  unfold rnd
  split
  · exact hf
  · split
    · omega
    · split
      · exact hf
      · omega

theorem rnd_nonpos {x : ℚ} (h : x ≤ 0) : rnd x ≤ 0 := by
  have hfl : (⌊x⌋ : ℚ) ≤ x := Int.floor_le x
  by_cases he : (⌊x⌋ : ℚ) = x
  · have hr : x - ⌊x⌋ = 0 := by linarith
    unfold rnd
    rw [hr]
    rw [if_pos (by norm_num)]
    exact_mod_cast le_trans hfl h
  · have hlt : (⌊x⌋ : ℚ) < x := lt_of_le_of_ne hfl he
    have hneg : ⌊x⌋ + 1 ≤ 0 := by
      by_contra hc
      push_neg at hc
      have : (0 : ℤ) ≤ ⌊x⌋ := by omega
      have : (0 : ℚ) ≤ ⌊x⌋ := by exact_mod_cast this
      linarith
    unfold rnd
    split
    · omega
    · split
      · exact hneg
      · split <;> omega

theorem rnd_eq_of_lt_half (x : ℚ) (n : ℤ) (h1 : (n : ℚ) ≤ x) (h2 : x - n < 1/2) :
    rnd x = n := by
  have hf : ⌊x⌋ = n := by
    rw [Int.floor_eq_iff]
    constructor
    · exact h1
    · push_cast; linarith
  unfold rnd
  rw [hf, if_pos h2]

theorem rnd_eq_of_half_lt (x : ℚ) (n : ℤ) (h1 : x ≤ (n : ℚ) + 1) (h2 : 1/2 < x - n) :
    rnd x = n + 1 := by
  by_cases he : x = (n : ℚ) + 1
  · have : x = ((n + 1 : ℤ) : ℚ) := by push_cast; linarith
    rw [this, rnd_intCast]
  · have hlt : x < (n : ℚ) + 1 := lt_of_le_of_ne h1 he
    have hf : ⌊x⌋ = n := by
      rw [Int.floor_eq_iff]
      constructor
      · linarith
      · push_cast; linarith
    unfold rnd
    rw [hf, if_neg (by linarith), if_pos h2]

theorem roundSig_zero (B p : ℕ) : roundSig B p 0 = 0 := by simp [roundSig]

theorem roundSig_nonneg (B p : ℕ) (hB : 0 < B) {q : ℚ} (h : 0 ≤ q) :
    0 ≤ roundSig B p q := by
  unfold roundSig
  split
  · exact le_refl 0
  · have h1 : 0 ≤ q * bpow B ((p : ℤ) - 1 - bexp B q) :=
      mul_nonneg h (le_of_lt (bpow_pos B hB _))
    have h2 : (0 : ℤ) ≤ rnd (q * bpow B ((p : ℤ) - 1 - bexp B q)) := rnd_nonneg h1
    exact mul_nonneg (by exact_mod_cast h2) (le_of_lt (bpow_pos B hB _))

theorem roundSig_nonpos (B p : ℕ) (hB : 0 < B) {q : ℚ} (h : q ≤ 0) :
    roundSig B p q ≤ 0 := by
  unfold roundSig
  split
  · exact le_refl 0
  · have h1 : q * bpow B ((p : ℤ) - 1 - bexp B q) ≤ 0 :=
      mul_nonpos_of_nonpos_of_nonneg h (le_of_lt (bpow_pos B hB _))
    have h2 : rnd (q * bpow B ((p : ℤ) - 1 - bexp B q)) ≤ 0 := rnd_nonpos h1
    exact mul_nonpos_of_nonpos_of_nonneg (by exact_mod_cast h2) (le_of_lt (bpow_pos B hB _))

theorem roundSig_eq_self (B p : ℕ) (hB : 2 ≤ B) (c e : ℤ) (hc : |c| < (B : ℤ) ^ p) :
    roundSig B p ((c : ℚ) * bpow B e) = (c : ℚ) * bpow B e := by
  have hB0 : (0 : ℕ) < B := by omega
  by_cases hc0 : c = 0
  · subst hc0
    simp [roundSig]
  · have hq : (c : ℚ) * bpow B e ≠ 0 :=
      mul_ne_zero (by exact_mod_cast hc0) (bpow_ne_zero B hB0 e)
    set q : ℚ := (c : ℚ) * bpow B e with hq_def
    have habs : |q| = |(c : ℚ)| * bpow B e := by
      rw [hq_def, abs_mul, abs_of_pos (bpow_pos B hB0 e)]
    -- the exponent of q is below e + p
    have hup : |q| < bpow B (e + p) := by
      rw [habs, bpow_add B hB0]
      have hcq : |(c : ℚ)| < ((B ^ p : ℕ) : ℚ) := by
        rw [← Int.cast_abs]
        exact_mod_cast hc
      have hbp : bpow B (p : ℤ) = ((B ^ p : ℕ) : ℚ) := by
        unfold bpow
        rw [if_pos (by positivity), Int.toNat_natCast]
      rw [mul_comm]
      rw [hbp]
      exact mul_lt_mul_of_pos_left hcq (bpow_pos B hB0 e)
    have hE : bexp B q ≤ e + p - 1 := by
      obtain ⟨hs1, _⟩ := bexp_spec B hB q hq
      have : bpow B (bexp B q) < bpow B (e + p) := lt_of_le_of_lt hs1 hup
      have := (bpow_lt_bpow_iff B hB).mp this
      omega
    set s : ℤ := (p : ℤ) - 1 - bexp B q with hs_def
    have hshift : (0 : ℤ) ≤ e + s := by omega
    -- the scaled value is an integer
    have hint : q * bpow B s = ((c * (B : ℤ) ^ (e + s).toNat : ℤ) : ℚ) := by
      rw [hq_def, mul_assoc, ← bpow_add B hB0]
      have hb : bpow B (e + s) = (((B : ℤ) ^ (e + s).toNat : ℤ) : ℚ) := by
        rw [bpow_eq_zpow B hB0]
        push_cast
        rw [← zpow_natCast (B : ℚ) (e + s).toNat]
        congr 1
        omega
      rw [hb]
      push_cast
      ring
    unfold roundSig
    rw [if_neg hq, ← hs_def, hint, rnd_intCast, ← hint]
    rw [mul_assoc, ← bpow_add B hB0]
    have hzero : s + (bexp B q - ((p : ℤ) - 1)) = 0 := by rw [hs_def]; ring
    rw [hzero]
    have h1 : bpow B 0 = 1 := by unfold bpow; norm_num
    rw [h1, mul_one]

/-- Exactness of `ctxRound` on values with at most 50 significant decimal
digits, in the convenient form `c * 10^e`. -/
theorem ctxRound_eq_self (c e : ℤ) (hc : |c| < 10 ^ 50) :
    ctxRound ((c : ℚ) * bpow 10 e) = (c : ℚ) * bpow 10 e :=
  roundSig_eq_self 10 50 (by norm_num) c e (by exact_mod_cast hc)

theorem ctxRound_intCast (c : ℤ) (hc : |c| < 10 ^ 50) : ctxRound (c : ℚ) = (c : ℚ) := by
  have h := ctxRound_eq_self c 0 hc
  have h1 : bpow 10 0 = 1 := by norm_num [bpow]
  rw [h1, mul_one] at h
  exact h

theorem ctxRound_nonneg {q : ℚ} (h : 0 ≤ q) : 0 ≤ ctxRound q :=
  roundSig_nonneg 10 50 (by norm_num) h

theorem ctxRound_zero : ctxRound 0 = 0 := roundSig_zero 10 50

theorem roundToDouble_zero : roundToDouble 0 = 0 := by simp [roundToDouble]

theorem roundToDouble_nonpos {q : ℚ} (h : q ≤ 0) : roundToDouble q ≤ 0 := by
  unfold roundToDouble
  split
  · exact le_refl 0
  · split
    · have h1 : q * bpow 2 1074 ≤ 0 :=
        mul_nonpos_of_nonpos_of_nonneg h (le_of_lt (bpow_pos 2 (by norm_num) _))
      have h2 : rnd (q * bpow 2 1074) ≤ 0 := rnd_nonpos h1
      exact mul_nonpos_of_nonpos_of_nonneg (by exact_mod_cast h2)
        (le_of_lt (bpow_pos 2 (by norm_num) _))
    · exact roundSig_nonpos 2 53 (by norm_num) h

theorem decDigits_eq_zero {q : ℚ} (hd : isDecimalRat q) (h : decDigits q = 0) :
    q = 0 := by
  unfold decDigits decScaled at h
  have hscaled : q.num.natAbs * (10 ^ q.den / q.den) = 0 := by
    by_contra hc
    unfold sigDigits at h
    rw [if_neg hc] at h
    have := lenAux_pos 10 (stripZeros (q.num.natAbs * (10 ^ q.den / q.den))
      (q.num.natAbs * (10 ^ q.den / q.den))) (stripZeros (q.num.natAbs * (10 ^ q.den / q.den))
      (q.num.natAbs * (10 ^ q.den / q.den)))
    unfold blen at h
    omega
  have hquot : 0 < 10 ^ q.den / q.den := by
    have hmul := Nat.div_mul_cancel hd
    have hpow : 0 < 10 ^ q.den := by positivity
    by_contra hc
    push_neg at hc
    interval_cases h2 : (10 ^ q.den / q.den)
    omega
  have hnum : q.num.natAbs = 0 := by
    rcases Nat.mul_eq_zero.mp hscaled with h1 | h1
    · exact h1
    · omega
  exact Rat.num_eq_zero.mp (Int.natAbs_eq_zero.mp hnum)

theorem StorageUnit.multiplier_pos (u : StorageUnit) : 0 < u.multiplier := by
  cases u <;> norm_num [StorageUnit.multiplier]

theorem bpow_natCast (B : ℕ) (hB : 0 < B) (k : ℕ) : bpow B (k : ℤ) = (B : ℚ) ^ k := by
  rw [bpow_eq_zpow B hB, zpow_natCast]

theorem bpow_neg_natCast (B : ℕ) (hB : 0 < B) (k : ℕ) :
    bpow B (-(k : ℤ)) = ((B : ℚ) ^ k)⁻¹ := by
  rw [bpow_eq_zpow B hB, zpow_neg, zpow_natCast]

theorem ctxRound_natCast (n : ℕ) (h : n < 10 ^ 50) : ctxRound (n : ℚ) = (n : ℚ) := by
  have h1 : |(n : ℤ)| < 10 ^ 50 := by
    rw [Int.abs_natCast]
    exact_mod_cast h
  have h2 := ctxRound_intCast (n : ℤ) h1
  push_cast at h2
  exact h2

/-- `ctxRound (10^k + 1) = 10^k` for `k ≥ 50`: one representative loss of
precision of the 50-digit decimal context. -/
theorem ctxRound_pow_add_one (k : ℕ) (hk : 50 ≤ k) :
    ctxRound ((10 : ℚ) ^ k + 1) = (10 : ℚ) ^ k := by
  set q : ℚ := (10 : ℚ) ^ k + 1 with hq_def
  have hq_pos : (0 : ℚ) < q := by positivity
  have hq_ne : q ≠ 0 := ne_of_gt hq_pos
  have habs : |q| = q := abs_of_pos hq_pos
  have hbe : bexp 10 q = (k : ℤ) := by
    apply bexp_eq 10 (by norm_num) q hq_ne
    · rw [habs, hq_def, bpow_natCast 10 (by norm_num)]
      push_cast
      linarith
    · rw [habs, hq_def]
      have he : ((k : ℤ) + 1) = ((k + 1 : ℕ) : ℤ) := by omega
      rw [he, bpow_natCast 10 (by norm_num)]
      push_cast
      have h10 : (10 : ℚ) ^ (k + 1) = 10 * (10 : ℚ) ^ k := by
        rw [pow_succ]; ring
      rw [h10]
      have hp : (1 : ℚ) ≤ (10 : ℚ) ^ k := one_le_pow₀ (by norm_num)
      linarith
  unfold ctxRound roundSig
  rw [if_neg hq_ne, hbe]
  have e1 : ((50 : ℕ) : ℤ) - 1 - (k : ℤ) = -((k - 49 : ℕ) : ℤ) := by
    push_cast; omega
  have e2 : (k : ℤ) - (((50 : ℕ) : ℤ) - 1) = ((k - 49 : ℕ) : ℤ) := by
    push_cast; omega
  rw [e1, e2, bpow_neg_natCast 10 (by norm_num), bpow_natCast 10 (by norm_num)]
  push_cast
  have hscaled : q * ((10 : ℚ) ^ (k - 49))⁻¹ = (10 : ℚ) ^ 49 + ((10 : ℚ) ^ (k - 49))⁻¹ := by
    rw [hq_def]
    have hsplit : (10 : ℚ) ^ k = (10 : ℚ) ^ 49 * (10 : ℚ) ^ (k - 49) := by
      rw [← pow_add]
      congr 1
      omega
    rw [hsplit]
    have hne : ((10 : ℚ) ^ (k - 49)) ≠ 0 := by positivity
    field_simp
  rw [hscaled]
  have hcast : (((10 : ℤ) ^ 49 : ℤ) : ℚ) = (10 : ℚ) ^ 49 := by
    rw [Int.cast_pow]
    norm_num
  have hrnd : rnd ((10 : ℚ) ^ 49 + ((10 : ℚ) ^ (k - 49))⁻¹) = (10 : ℤ) ^ 49 := by
    apply rnd_eq_of_lt_half
    · rw [hcast]
      have h0 : (0 : ℚ) < ((10 : ℚ) ^ (k - 49))⁻¹ := by positivity
      linarith
    · rw [hcast]
      have h1 : ((10 : ℚ) ^ (k - 49))⁻¹ ≤ (10 : ℚ)⁻¹ := by
        have h2 : (10 : ℚ) ≤ (10 : ℚ) ^ (k - 49) := by
          calc (10 : ℚ) = 10 ^ 1 := (pow_one 10).symm
            _ ≤ 10 ^ (k - 49) := by
                apply pow_le_pow_right₀ (by norm_num)
                omega
        exact inv_le_inv_of_le (by norm_num) h2
      have h2 : ((10 : ℚ) ^ 49 + ((10 : ℚ) ^ (k - 49))⁻¹) - (10 : ℚ) ^ 49
          = ((10 : ℚ) ^ (k - 49))⁻¹ := by ring
      rw [h2]
      calc ((10 : ℚ) ^ (k - 49))⁻¹ ≤ (10 : ℚ)⁻¹ := h1
        _ < 1 / 2 := by norm_num
  rw [hrnd, hcast, ← pow_add]
  congr 1
  omega

/-- C6: converting a `StorageValue` to its own unit is the identity:
`ConversionEngine.convert_to(v.unit)` returns the bound value itself
(same magnitude and unit, no recomputation), and `StorageValue.to_unit`
returns the stored magnitude unchanged. -/
theorem C6_identity_conversion (v : SV) :
    ConversionEngine.convert_to v v.unit = .ok v ∧
    SV.to_unit v v.unit = v.decimal_value := by
  constructor
  · unfold ConversionEngine.convert_to
    rw [if_pos rfl]
  · unfold SV.to_unit
    rw [if_pos rfl]

/-- C1 (code bug): the claim says the constructor accepts every
non-negative decimal string and rejects every non-finite input with
`InvalidValue`-kind `ValueError`.  The code instead runs `value < 0` before
the type dispatch (core.py:68), so a string input always raises `TypeError`
(`'<' not supported between instances of 'str' and 'int'`) — contradicting
the constructor's own docstring example `StorageValue("1.5", StorageUnit.MB)`
and its documented `ValueError` for invalid numeric strings — and a
non-finite `Decimal('Infinity')` is accepted and stored.  A negative int is
rejected as documented. -/
theorem C1_constructor_string_typeerror :
    StorageValue.init (.pstr "1.5".toList) .MB = .error .typeErr ∧
    StorageValue.init (.pstr "abc".toList) .MB = .error .typeErr ∧
    StorageValue.init (.pdec .inf) .KIB = .ok ⟨.inf, .KIB⟩ ∧
    StorageValue.init (.pint (-1)) .BYTES = .error .negativeValue :=
  ⟨rfl, rfl, rfl, rfl⟩

theorem pyIsSpace_commaToDot (c : Char) : pyIsSpace (commaToDot c) = pyIsSpace c := by
  by_cases h : c = ','
  · subst h; decide
  · simp only [commaToDot, if_neg h]

theorem commaToDot_lower_commaToDot (c : Char) :
    commaToDot (toLowerChar (commaToDot c)) = commaToDot (toLowerChar c) := by
  by_cases h : c = ','
  · subst h; decide
  · simp only [commaToDot, if_neg h]

theorem pyStrip_map_commaToDot (s : List Char) :
    pyStrip (s.map commaToDot) = (pyStrip s).map commaToDot := by
  have hp : (pyIsSpace ∘ commaToDot) = pyIsSpace := funext pyIsSpace_commaToDot
  unfold pyStrip
  rw [List.dropWhile_map, hp, ← List.map_reverse, List.dropWhile_map, hp, ← List.map_reverse]

theorem normalize_map_commaToDot (s : List Char) :
    ((pyStrip (s.map commaToDot)).map toLowerChar).map commaToDot
      = ((pyStrip s).map toLowerChar).map commaToDot := by
  rw [pyStrip_map_commaToDot, List.map_map, List.map_map, List.map_map]
  congr 1
  funext c
  simp only [Function.comp]
  exact commaToDot_lower_commaToDot c

/-- Shared evaluation: what the parser actually returns on `"1,024 KiB"`.
The comma is normalized to a decimal point, so the numeric token is
`1.024` (= 128/125), and the unit token resolves to KIB. -/
theorem parse_comma_example :
    StringParser.parse "1,024 KiB".toList none = .ok (128/125, .KIB) := by
  unfold StringParser.parse
  rw [if_neg (by decide)]
  have hn : (((pyStrip "1,024 KiB".toList).map toLowerChar).map commaToDot)
      = "1.024 kib".toList := by decide
  have hm : matchStorage "1.024 kib".toList = some ("1.024".toList, "kib".toList) := by
    decide
  have ha : aliasLookup "kib".toList = some StorageUnit.KIB := by decide
  have h1 : "1.024".toList.takeWhile (fun c => c != '.') = "1".toList := by decide
  have h2 : ("1.024".toList.dropWhile (fun c => c != '.')).drop 1 = "024".toList := by decide
  have h3 : digitsToNat "1".toList = 1 := by decide
  have h4 : digitsToNat "024".toList = 24 := by decide
  have h5 : ("024".toList).length = 3 := by decide
  have hv : decLitVal "1.024".toList = 128 / 125 := by
    simp only [decLitVal, h1, h2, h3, h4, h5]
    norm_num
  simp only [hn, hm, ha, Option.getD_some, hv]

/-- C2 (counterexample to the claim as stated): `parse("1,024 KiB")` does
not return 1024 — the comma is treated as a decimal separator, so the
value is exactly 1.024 = 128/125. -/
theorem C2_parse_comma_counterexample :
    StringParser.parse "1,024 KiB".toList none = .ok (128/125, .KIB) ∧
    (128 / 125 : ℚ) ≠ 1024 := ⟨parse_comma_example, by norm_num⟩

/-- C2 (amended): the parser treats `,` as a decimal separator normalized
to `.` — parsing any string is unchanged under replacing every comma by a
dot — and in particular `parse("1,024 KiB")` returns the exact decimal
1.024 (not 1024) paired with unit KIB. -/
theorem C2_comma_decimal_separator :
    (∀ (s : List Char) (d : Option StorageUnit),
        StringParser.parse (s.map commaToDot) d = StringParser.parse s d) ∧
    StringParser.parse "1,024 KiB".toList none = .ok (128/125, .KIB) := by
  constructor
  · intro s d
    unfold StringParser.parse
    by_cases he : pyStrip s = []
    · rw [if_pos he, if_pos (by rw [pyStrip_map_commaToDot, he]; rfl)]
    · have he2 : ¬ (pyStrip (s.map commaToDot) = []) := by
        rw [pyStrip_map_commaToDot]
        intro hc
        exact he (List.map_eq_nil_iff.mp hc)
      rw [if_neg he, if_neg he2, normalize_map_commaToDot]
  · exact parse_comma_example

theorem ctxRound_pow10 (k : ℕ) : ctxRound ((10 : ℚ) ^ k) = (10 : ℚ) ^ k := by
  have h := ctxRound_eq_self 1 (k : ℤ) (by norm_num)
  rw [bpow_natCast 10 (by norm_num)] at h
  push_cast at h
  simpa using h

theorem ctxRound_q1 : ctxRound (1 : ℚ) = 1 := by
  have h := ctxRound_natCast 1 (by norm_num)
  push_cast at h
  exact h

theorem ctxRound_q512 : ctxRound (512 : ℚ) = 512 := by
  have h := ctxRound_natCast 512 (by norm_num)
  push_cast at h
  exact h

theorem ctxRound_q1024 : ctxRound (1024 : ℚ) = 1024 := by
  have h := ctxRound_natCast 1024 (by norm_num)
  push_cast at h
  exact h

theorem ctxRound_q1536 : ctxRound (1536 : ℚ) = 1536 := by
  have h := ctxRound_natCast 1536 (by norm_num)
  push_cast at h
  exact h

theorem ctxRound_q33_10 : ctxRound (33 / 10 : ℚ) = 33 / 10 := by
  have h := ctxRound_eq_self 33 (-1) (by norm_num)
  have hb : bpow 10 (-1) = (10 : ℚ)⁻¹ := by
    have := bpow_neg_natCast 10 (by norm_num) 1
    push_cast at this
    simpa using this
  rw [hb] at h
  push_cast at h
  have he : (33 : ℚ) * (10 : ℚ)⁻¹ = 33 / 10 := by ring
  rw [he] at h
  exact h

/-- C4 (counterexample to the claim as stated): the 50-significant-digit
decimal context loses the low-order digit of a 51-digit magnitude, so
`10^50 + 1` BYTES converted to KIB and back yields exactly `10^50`, not
the original magnitude. -/
theorem C4_roundtrip_counterexample :
    (ConversionEngine.convert_to ⟨(10 : ℚ) ^ 50 + 1, .BYTES⟩ .KIB).bind
        (fun w => ConversionEngine.convert_to w .BYTES)
      = .ok ⟨(10 : ℚ) ^ 50, .BYTES⟩ ∧ ((10 : ℚ) ^ 50 ≠ (10 : ℚ) ^ 50 + 1) := by
  constructor
  · have hb1 : SV.to_bytes ⟨(10 : ℚ) ^ 50 + 1, .BYTES⟩ = (10 : ℚ) ^ 50 := by
      unfold SV.to_bytes
      simp only [StorageUnit.multiplier, mul_one]
      exact ctxRound_pow_add_one 50 le_rfl
    have hq1 : (10 : ℚ) ^ 50 / StorageUnit.KIB.multiplier
        = ((9765625 * 10 ^ 40 : ℤ) : ℚ) := by
      simp only [StorageUnit.multiplier]
      rw [div_eq_iff (by norm_num)]
      norm_num
    have hc1 : ctxRound ((10 : ℚ) ^ 50 / StorageUnit.KIB.multiplier)
        = ((9765625 * 10 ^ 40 : ℤ) : ℚ) := by
      rw [hq1, ctxRound_intCast _ (by norm_num)]
    have step1 : ConversionEngine.convert_to ⟨(10 : ℚ) ^ 50 + 1, .BYTES⟩ .KIB
        = .ok ⟨((9765625 * 10 ^ 40 : ℤ) : ℚ), .KIB⟩ := by
      unfold ConversionEngine.convert_to
      rw [if_neg (by decide), hb1, hc1]
      unfold mkSV
      rw [if_neg (not_lt.mpr (by positivity))]
    have hb2 : SV.to_bytes ⟨((9765625 * 10 ^ 40 : ℤ) : ℚ), .KIB⟩ = (10 : ℚ) ^ 50 := by
      unfold SV.to_bytes
      simp only [StorageUnit.multiplier]
      have he : ((9765625 * 10 ^ 40 : ℤ) : ℚ) * 1024 = (10 : ℚ) ^ 50 := by
        push_cast
        norm_num
      rw [he]
      exact ctxRound_pow10 50
    have step2 : ConversionEngine.convert_to ⟨((9765625 * 10 ^ 40 : ℤ) : ℚ), .KIB⟩ .BYTES
        = .ok ⟨(10 : ℚ) ^ 50, .BYTES⟩ := by
      unfold ConversionEngine.convert_to
      rw [if_neg (by decide), hb2]
      simp only [StorageUnit.multiplier, div_one]
      rw [ctxRound_pow10 50]
      unfold mkSV
      rw [if_neg (not_lt.mpr (by positivity))]
    rw [step1]
    simpa using step2
  · intro h
    have : (0 : ℚ) = 1 := by linarith [congrArg id h]
    norm_num at this

/-- C4 (amended): the round trip through a target unit recovers the
original magnitude exactly whenever the three intermediate context
operations are exact at the 50-significant-digit working precision (in
particular whenever magnitude and multipliers are small enough, e.g.
`1024 BYTES → KIB → BYTES` is exactly `1024`); for magnitudes beyond the
working precision the round trip drifts (see the counterexample). -/
theorem C4_roundtrip_exact (m : ℚ) (u t : StorageUnit)
    (hm : 0 ≤ m)
    (h1 : ctxRound (m * u.multiplier) = m * u.multiplier)
    (h2 : ctxRound (m * u.multiplier / t.multiplier) = m * u.multiplier / t.multiplier)
    (h3 : ctxRound m = m) :
    (ConversionEngine.convert_to ⟨m, u⟩ t).bind
      (fun w => ConversionEngine.convert_to w u) = .ok ⟨m, u⟩ := by
  by_cases hu : u = t
  · subst hu
    have hid : ConversionEngine.convert_to ⟨m, u⟩ u = .ok ⟨m, u⟩ := by
      unfold ConversionEngine.convert_to
      rw [if_pos rfl]
    rw [hid]
    simpa using hid
  · have ht_pos := StorageUnit.multiplier_pos t
    have hu_pos := StorageUnit.multiplier_pos u
    have hx : 0 ≤ m * u.multiplier / t.multiplier := by positivity
    have step1 : ConversionEngine.convert_to ⟨m, u⟩ t
        = .ok ⟨m * u.multiplier / t.multiplier, t⟩ := by
      unfold ConversionEngine.convert_to SV.to_bytes
      rw [if_neg hu]
      simp only
      rw [h1, h2]
      unfold mkSV
      rw [if_neg (not_lt.mpr hx)]
    have hback : m * u.multiplier / t.multiplier * t.multiplier = m * u.multiplier := by
      field_simp
    have step2 : ConversionEngine.convert_to ⟨m * u.multiplier / t.multiplier, t⟩ u
        = .ok ⟨m, u⟩ := by
      unfold ConversionEngine.convert_to SV.to_bytes
      rw [if_neg (fun hc => hu hc.symm)]
      simp only
      rw [hback, h1]
      have hdiv : m * u.multiplier / u.multiplier = m := by
        field_simp
      rw [hdiv, h3]
      unfold mkSV
      rw [if_neg (not_lt.mpr hm)]
    rw [step1]
    simpa using step2

/-- Witness for C4: `1024 BYTES → KIB → BYTES` recovers exactly `1024`. -/
theorem C4_roundtrip_exact_witness :
    (ConversionEngine.convert_to ⟨(1024 : ℚ), .BYTES⟩ .KIB).bind
      (fun w => ConversionEngine.convert_to w .BYTES) = .ok ⟨(1024 : ℚ), .BYTES⟩ := by
  apply C4_roundtrip_exact 1024 .BYTES .KIB (by norm_num)
  · simp only [StorageUnit.multiplier, mul_one]
    exact ctxRound_q1024
  · simp only [StorageUnit.multiplier, mul_one]
    have he : (1024 : ℚ) / 1024 = 1 := by norm_num
    rw [he]
    exact ctxRound_q1
  · exact ctxRound_q1024

theorem to_bytes_nonneg {v : SV} (h : 0 ≤ v.decimal_value) : 0 ≤ v.to_bytes :=
  ctxRound_nonneg (mul_nonneg h (le_of_lt (StorageUnit.multiplier_pos v.unit)))

/-- C5 (counterexample to the claim as stated): same-unit addition is not
always the exact decimal sum — the 50-significant-digit context rounds it.
`10^60 BYTES + 1 BYTES` yields exactly `10^60`, not `10^60 + 1`. -/
theorem C5_add_counterexample :
    ArithmeticEngine.add ⟨(10 : ℚ) ^ 60, .BYTES⟩ ⟨1, .BYTES⟩
      = .ok ⟨(10 : ℚ) ^ 60, .BYTES⟩ ∧ ((10 : ℚ) ^ 60 ≠ (10 : ℚ) ^ 60 + 1) := by
  constructor
  · unfold ArithmeticEngine.add
    rw [if_pos rfl]
    simp only
    rw [ctxRound_pow_add_one 60 (by norm_num)]
    unfold mkSV
    rw [if_neg (not_lt.mpr (by positivity))]
  · intro h
    have h2 : (0 : ℚ) = 1 := by linarith [congrArg id h]
    norm_num at h2

/-- C5 (amended): same-unit `add` returns the context-rounded (50
significant digits, half-even) sum with the unit preserved — exactly the
sum whenever it fits in 50 significant digits, so `1.1 + 2.2` (same unit)
is exactly `3.3` with no binary-float artifact — and `add` of
differently-united operands returns the context-rounded sum of the two
context-rounded byte equivalents with unit BYTES, so `1 KiB + 512 BYTES`
is exactly `1536 BYTES`. -/
theorem C5_add_semantics :
    (∀ l r : SV, l.unit = r.unit → 0 ≤ l.decimal_value → 0 ≤ r.decimal_value →
        ArithmeticEngine.add l r
          = .ok ⟨ctxRound (l.decimal_value + r.decimal_value), l.unit⟩) ∧
    (∀ (l r : SV) (c e : ℤ), l.unit = r.unit →
        0 ≤ l.decimal_value → 0 ≤ r.decimal_value → |c| < 10 ^ 50 →
        l.decimal_value + r.decimal_value = (c : ℚ) * bpow 10 e →
        ArithmeticEngine.add l r
          = .ok ⟨l.decimal_value + r.decimal_value, l.unit⟩) ∧
    (∀ l r : SV, l.unit ≠ r.unit → 0 ≤ l.decimal_value → 0 ≤ r.decimal_value →
        ArithmeticEngine.add l r
          = .ok ⟨ctxRound (l.to_bytes + r.to_bytes), .BYTES⟩) ∧
    ArithmeticEngine.add ⟨11 / 10, .GB⟩ ⟨22 / 10, .GB⟩ = .ok ⟨33 / 10, .GB⟩ ∧
    ArithmeticEngine.add ⟨1, .KIB⟩ ⟨512, .BYTES⟩ = .ok ⟨1536, .BYTES⟩ := by
  have hsame : ∀ l r : SV, l.unit = r.unit → 0 ≤ l.decimal_value → 0 ≤ r.decimal_value →
      ArithmeticEngine.add l r
        = .ok ⟨ctxRound (l.decimal_value + r.decimal_value), l.unit⟩ := by
    intro l r hu hl hr
    unfold ArithmeticEngine.add
    rw [if_pos hu]
    unfold mkSV
    rw [if_neg (not_lt.mpr (ctxRound_nonneg (add_nonneg hl hr)))]
  refine ⟨hsame, ?_, ?_, ?_, ?_⟩
  · intro l r c e hu hl hr hc hsum
    have h := hsame l r hu hl hr
    rw [hsum, ctxRound_eq_self c e hc, ← hsum] at h
    exact h
  · intro l r hu hl hr
    unfold ArithmeticEngine.add
    rw [if_neg hu]
    unfold mkSV
    rw [if_neg (not_lt.mpr (ctxRound_nonneg (add_nonneg (to_bytes_nonneg hl)
      (to_bytes_nonneg hr))))]
  · unfold ArithmeticEngine.add
    rw [if_pos rfl]
    simp only
    have he : (11 / 10 : ℚ) + 22 / 10 = 33 / 10 := by norm_num
    rw [he, ctxRound_q33_10]
    unfold mkSV
    rw [if_neg (not_lt.mpr (by norm_num))]
  · unfold ArithmeticEngine.add
    rw [if_neg (by decide)]
    have hb1 : SV.to_bytes ⟨1, .KIB⟩ = 1024 := by
      unfold SV.to_bytes
      simp only [StorageUnit.multiplier, one_mul]
      exact ctxRound_q1024
    have hb2 : SV.to_bytes ⟨512, .BYTES⟩ = 512 := by
      unfold SV.to_bytes
      simp only [StorageUnit.multiplier, mul_one]
      exact ctxRound_q512
    rw [hb1, hb2]
    have he : (1024 : ℚ) + 512 = 1536 := by norm_num
    rw [he, ctxRound_q1536]
    unfold mkSV
    rw [if_neg (not_lt.mpr (by norm_num))]

/-- Witness for C5: a concrete same-unit addition through the theorem. -/
theorem C5_add_semantics_witness :
    ArithmeticEngine.add ⟨(1 : ℚ), .BYTES⟩ ⟨(2 : ℚ), .BYTES⟩
      = .ok ⟨ctxRound ((1 : ℚ) + 2), .BYTES⟩ :=
  C5_add_semantics.1 ⟨(1 : ℚ), .BYTES⟩ ⟨(2 : ℚ), .BYTES⟩ rfl (by norm_num) (by norm_num)

theorem mkSV_ok_nonneg {q : ℚ} {u : StorageUnit} {w : SV} (h : mkSV q u = .ok w) :
    0 ≤ w.decimal_value := by
  unfold mkSV at h
  by_cases hq : q < 0
  · rw [if_pos hq] at h
    exact absurd h (by simp)
  · rw [if_neg hq] at h
    have hw : w = ⟨q, u⟩ := by
      injection h with h'
      exact h'.symm
    rw [hw]
    exact not_lt.mp hq

/-- C3: every `StorageValue` produced by construction, conversion, add,
subtract, multiply, divide, floor_divide or modulo has magnitude `≥ 0`;
in particular `subtract` either returns a value with magnitude `≥ 0` or
fails with `NegativeResult` (and with no other error), never returning a
negative magnitude. -/
theorem C3_magnitude_nonneg :
    (∀ (q : ℚ) (u : StorageUnit) (w : SV), mkSV q u = .ok w → 0 ≤ w.decimal_value) ∧
    (∀ (v : SV) (t : StorageUnit) (w : SV), 0 ≤ v.decimal_value →
        ConversionEngine.convert_to v t = .ok w → 0 ≤ w.decimal_value) ∧
    (∀ (l r w : SV), ArithmeticEngine.add l r = .ok w → 0 ≤ w.decimal_value) ∧
    (∀ (l r w : SV), ArithmeticEngine.subtract l r = .ok w → 0 ≤ w.decimal_value) ∧
    (∀ (l r : SV) (e : PyErr),
        ArithmeticEngine.subtract l r = .error e → e = .negativeResult) ∧
    (∀ (l : SV) (f : PyNum) (w : SV),
        ArithmeticEngine.multiply l f = .ok w → 0 ≤ w.decimal_value) ∧
    (∀ (l : SV) (d : PyNum) (w : SV),
        ArithmeticEngine.divide l d = .ok w → 0 ≤ w.decimal_value) ∧
    (∀ (l : SV) (d : PyNum) (w : SV),
        ArithmeticEngine.floor_divide l d = .ok w → 0 ≤ w.decimal_value) ∧
    (∀ (l : SV) (d : PyNum) (w : SV),
        ArithmeticEngine.modulo l d = .ok w → 0 ≤ w.decimal_value) := by
  refine ⟨?_, ?_, ?_, ?_, ?_, ?_, ?_, ?_, ?_⟩
  · intro q u w h
    exact mkSV_ok_nonneg h
  · intro v t w hv h
    simp only [ConversionEngine.convert_to] at h
    split at h
    · have hw : w = v := by
        injection h with h'
        exact h'.symm
      rw [hw]
      exact hv
    · exact mkSV_ok_nonneg h
  · intro l r w h
    simp only [ArithmeticEngine.add] at h
    split at h
    · exact mkSV_ok_nonneg h
    · exact mkSV_ok_nonneg h
  · intro l r w h
    simp only [ArithmeticEngine.subtract] at h
    split at h
    · split at h
      · exact absurd h (by simp)
      · exact mkSV_ok_nonneg h
    · split at h
      · exact absurd h (by simp)
      · exact mkSV_ok_nonneg h
  · intro l r e h
    simp only [ArithmeticEngine.subtract] at h
    split at h
    · split at h
      · injection h with h'
        exact h'.symm
      · rename_i hd
        unfold mkSV at h
        rw [if_neg hd] at h
        exact absurd h (by simp)
    · split at h
      · injection h with h'
        exact h'.symm
      · rename_i hd
        unfold mkSV at h
        rw [if_neg hd] at h
        exact absurd h (by simp)
  · intro l f w h
    simp only [ArithmeticEngine.multiply] at h
    split at h
    · exact absurd h (by simp)
    · exact mkSV_ok_nonneg h
  · intro l d w h
    simp only [ArithmeticEngine.divide] at h
    split at h
    · exact absurd h (by simp)
    · exact mkSV_ok_nonneg h
  · intro l d w h
    simp only [ArithmeticEngine.floor_divide] at h
    split at h
    · exact absurd h (by simp)
    · split at h
      · exact absurd h (by simp)
      · exact mkSV_ok_nonneg h
  · intro l d w h
    simp only [ArithmeticEngine.modulo] at h
    split at h
    · exact absurd h (by simp)
    · split at h
      · exact absurd h (by simp)
      · exact mkSV_ok_nonneg h

/-- Witness for C3: a constructed value and a negative-result subtraction,
through the theorem. -/
theorem C3_magnitude_nonneg_witness :
    ((0 : ℚ) ≤ (SV.mk 3 .BYTES).decimal_value) ∧
    PyErr.negativeResult = PyErr.negativeResult := by
  constructor
  · exact C3_magnitude_nonneg.1 3 .BYTES ⟨3, .BYTES⟩ (by norm_num [mkSV])
  · apply C3_magnitude_nonneg.2.2.2.2.1 ⟨(1 : ℚ), .BYTES⟩ ⟨(2 : ℚ), .BYTES⟩
    simp only [ArithmeticEngine.subtract, if_true]
    have hc : ctxRound ((1 : ℚ) - 2) = -1 := by
      have he : (1 : ℚ) - 2 = ((-1 : ℤ) : ℚ) := by norm_num
      rw [he, ctxRound_intCast _ (by norm_num)]
      norm_num
    rw [hc]
    rw [if_pos (by norm_num)]

theorem pytrunc_eq_floor {q : ℚ} (h : 0 ≤ q) : pytrunc q = ⌊q⌋ := by
  unfold pytrunc
  rw [Rat.floor_def]
  exact Int.tdiv_eq_ediv (Rat.num_nonneg.mpr h) (by positivity)

theorem pytrunc_nonneg {q : ℚ} (h : 0 ≤ q) : 0 ≤ pytrunc q := by
  rw [pytrunc_eq_floor h]
  exact Int.floor_nonneg.mpr h

theorem PyNum.toDec_pos {d : PyNum} (h : 0 < d.val) : 0 < d.toDec := by
  cases d with
  | nint n => exact h
  | ndec q => exact h
  | nfloat b r hspec =>
      by_contra hc
      push_neg at hc
      simp only [PyNum.toDec] at hc
      have hr := roundToDouble_nonpos hc
      rw [hspec.1] at hr
      simp only [PyNum.val] at h
      linarith

/-- C7 (counterexample to the claim as stated): `modulo` with a strictly
positive divisor does not always return a `StorageValue` — when the
integer quotient needs more than the 50 working-precision digits,
`Decimal.__mod__` raises `InvalidOperation` (`DivisionImpossible`):
`(10^60 BYTES) % 7` fails although `7 > 0`. -/
theorem C7_modulo_precision_counterexample :
    ArithmeticEngine.modulo ⟨(10 : ℚ) ^ 60, .BYTES⟩ (.nint 7)
      = .error .divisionImpossible ∧ (0 : ℚ) < (PyNum.nint 7).val := by
  constructor
  · have hval : ¬ ((PyNum.nint 7).val ≤ 0) := by
      simp only [PyNum.val]
      push_cast
      norm_num
    have hq : (10 : ℚ) ^ 60 / (PyNum.nint 7).toDec
        = (((10 ^ 60 : ℤ)) : ℚ) / (((7 : ℕ)) : ℚ) := by
      simp only [PyNum.toDec]
      push_cast
      ring
    have htr : pytrunc ((10 : ℚ) ^ 60 / (PyNum.nint 7).toDec) = (10 ^ 60 : ℤ) / 7 := by
      rw [pytrunc_eq_floor (by rw [hq]; positivity), hq,
        Rat.floor_intCast_div_natCast (10 ^ 60) 7]
      norm_num
    have hbig : 10 ^ 50 ≤ (pytrunc ((10 : ℚ) ^ 60 / (PyNum.nint 7).toDec)).natAbs := by
      rw [htr]
      decide
    simp only [ArithmeticEngine.modulo]
    rw [if_neg hval, if_pos hbig]
  · simp only [PyNum.val]
    push_cast
    norm_num

/-- C7 (amended): `divide`, `floor_divide` and `modulo` all fail with
`NonPositiveDivisor` whenever the divisor is `≤ 0` — rejecting negative
divisors as well as zero, so `divide(-1)` and `divide(0)` both fail — and
for a strictly positive divisor `divide` always returns a new
`StorageValue` with the unit unchanged, while `floor_divide` and `modulo`
do so whenever the truncated quotient fits in the 50-digit working
precision (failing with a precision error beyond it, see the
counterexample). -/
theorem C7_divisor_sign_policy :
    (∀ (v : SV) (d : PyNum), d.val ≤ 0 →
        ArithmeticEngine.divide v d = .error .nonPositiveDivisor ∧
        ArithmeticEngine.floor_divide v d = .error .nonPositiveDivisor ∧
        ArithmeticEngine.modulo v d = .error .nonPositiveDivisor) ∧
    (∀ (v : SV) (d : PyNum), 0 < d.val → 0 ≤ v.decimal_value →
        ∃ w : SV, ArithmeticEngine.divide v d = .ok w ∧ w.unit = v.unit) ∧
    (∀ (v : SV) (d : PyNum), 0 < d.val → 0 ≤ v.decimal_value →
        (pytrunc (v.decimal_value / d.toDec)).natAbs < 10 ^ 50 →
        (∃ w : SV, ArithmeticEngine.floor_divide v d = .ok w ∧ w.unit = v.unit) ∧
        (∃ w : SV, ArithmeticEngine.modulo v d = .ok w ∧ w.unit = v.unit)) ∧
    (∀ v : SV,
        ArithmeticEngine.divide v (.nint (-1)) = .error .nonPositiveDivisor ∧
        ArithmeticEngine.divide v (.nint 0) = .error .nonPositiveDivisor) := by
  refine ⟨?_, ?_, ?_, ?_⟩
  · intro v d h
    refine ⟨?_, ?_, ?_⟩
    · unfold ArithmeticEngine.divide
      rw [if_pos h]
    · unfold ArithmeticEngine.floor_divide
      rw [if_pos h]
    · unfold ArithmeticEngine.modulo
      rw [if_pos h]
  · intro v d hd hv
    have htd := PyNum.toDec_pos hd
    have hnn : 0 ≤ ctxRound (v.decimal_value / d.toDec) :=
      ctxRound_nonneg (div_nonneg hv (le_of_lt htd))
    refine ⟨⟨ctxRound (v.decimal_value / d.toDec), v.unit⟩, ?_, rfl⟩
    unfold ArithmeticEngine.divide mkSV
    rw [if_neg (not_le.mpr hd), if_neg (not_lt.mpr hnn)]
  · intro v d hd hv hfit
    have htd := PyNum.toDec_pos hd
    have hqnn : 0 ≤ v.decimal_value / d.toDec := div_nonneg hv (le_of_lt htd)
    have hinn : (0 : ℚ) ≤ ((pytrunc (v.decimal_value / d.toDec) : ℤ) : ℚ) := by
      exact_mod_cast pytrunc_nonneg hqnn
    constructor
    · refine ⟨⟨((pytrunc (v.decimal_value / d.toDec) : ℤ) : ℚ), v.unit⟩, ?_, rfl⟩
      simp only [ArithmeticEngine.floor_divide]
      rw [if_neg (not_le.mpr hd), if_neg (not_le.mpr hfit)]
      unfold mkSV
      rw [if_neg (not_lt.mpr hinn)]
    · have hrem : (0 : ℚ) ≤ v.decimal_value
          - ((pytrunc (v.decimal_value / d.toDec) : ℤ) : ℚ) * d.toDec := by
        have hle : ((pytrunc (v.decimal_value / d.toDec) : ℤ) : ℚ)
            ≤ v.decimal_value / d.toDec := by
          rw [pytrunc_eq_floor hqnn]
          exact Int.floor_le _
        have h2 : ((pytrunc (v.decimal_value / d.toDec) : ℤ) : ℚ) * d.toDec
            ≤ (v.decimal_value / d.toDec) * d.toDec :=
          mul_le_mul_of_nonneg_right hle (le_of_lt htd)
        rw [div_mul_cancel₀ _ (ne_of_gt htd)] at h2
        linarith
      refine ⟨⟨v.decimal_value
          - ((pytrunc (v.decimal_value / d.toDec) : ℤ) : ℚ) * d.toDec, v.unit⟩, ?_, rfl⟩
      simp only [ArithmeticEngine.modulo]
      rw [if_neg (not_le.mpr hd), if_neg (not_le.mpr hfit)]
      unfold mkSV
      rw [if_neg (not_lt.mpr hrem)]
  · intro v
    constructor
    · unfold ArithmeticEngine.divide
      rw [if_pos (by simp only [PyNum.val]; push_cast; norm_num)]
    · unfold ArithmeticEngine.divide
      rw [if_pos (by simp only [PyNum.val]; push_cast; norm_num)]

/-- Witness for C7: `divide(-1)` fails and `divide(2)` succeeds with the
unit preserved, on a concrete value. -/
theorem C7_divisor_sign_policy_witness :
    ArithmeticEngine.divide ⟨(6 : ℚ), .KIB⟩ (.nint (-1)) = .error .nonPositiveDivisor ∧
    (∃ w : SV, ArithmeticEngine.divide ⟨(6 : ℚ), .KIB⟩ (.nint 2) = .ok w ∧
      w.unit = .KIB) := by
  constructor
  · exact (C7_divisor_sign_policy.2.2.2 ⟨(6 : ℚ), .KIB⟩).1
  · exact C7_divisor_sign_policy.2.1 ⟨(6 : ℚ), .KIB⟩ (.nint 2)
      (by simp only [PyNum.val]; push_cast; norm_num) (by norm_num)

/-- Zeta-reduced normal form of `StringParser.parse`. -/
theorem parse_eval (s : List Char) (d : Option StorageUnit) :
    StringParser.parse s d =
      if pyStrip s = [] then .error .emptyInput
      else
        match matchStorage (((pyStrip s).map toLowerChar).map commaToDot) with
        | none => .error .invalidFormat
        | some (numTok, unitTok) =>
            .ok (decLitVal numTok, (aliasLookup unitTok).getD (d.getD .BYTES)) := rfl

/-- C8: the parser fails (with a FormatError-kind `ValueError`) exactly when
the stripped input is empty or the normalized input does not match the
numeric grammar — in particular on `""`, `"abc"` and `"-1 MB"` (the grammar
has no sign token) — and both errors are the two FormatError raise sites;
when the input matches the grammar and the trailing unit token is empty or
unknown, the supplied default (or BYTES) is used silently, so `parse("500")`
yields `(500, BYTES)`. -/
theorem C8_parse_grammar :
    (∀ (s : List Char) (d : Option StorageUnit),
        (∃ e, StringParser.parse s d = .error e) ↔
          (pyStrip s = [] ∨
            matchStorage (((pyStrip s).map toLowerChar).map commaToDot) = none)) ∧
    (∀ (s : List Char) (d : Option StorageUnit) (e : PyErr),
        StringParser.parse s d = .error e → e = .emptyInput ∨ e = .invalidFormat) ∧
    (∀ (s : List Char) (d : Option StorageUnit) (numTok unitTok : List Char),
        matchStorage (((pyStrip s).map toLowerChar).map commaToDot)
          = some (numTok, unitTok) →
        aliasLookup unitTok = none →
        StringParser.parse s d = .ok (decLitVal numTok, d.getD .BYTES)) ∧
    aliasLookup [] = none ∧
    StringParser.parse "500".toList none = .ok (500, .BYTES) ∧
    StringParser.parse "".toList none = .error .emptyInput ∧
    StringParser.parse "abc".toList none = .error .invalidFormat ∧
    StringParser.parse "-1 MB".toList none = .error .invalidFormat := by
  refine ⟨?_, ?_, ?_, by decide, ?_, ?_, ?_, ?_⟩
  · intro s d
    constructor
    · rintro ⟨e, he⟩
      rw [parse_eval] at he
      by_cases hs : pyStrip s = []
      · exact .inl hs
      · rw [if_neg hs] at he
        right
        cases hm : matchStorage (((pyStrip s).map toLowerChar).map commaToDot) with
        | none => rfl
        | some p =>
            obtain ⟨nt, ut⟩ := p
            rw [hm] at he
            exact absurd he (by simp)
    · intro h
      by_cases hs : pyStrip s = []
      · exact ⟨.emptyInput, by rw [parse_eval, if_pos hs]⟩
      · rcases h with h1 | hm
        · exact absurd h1 hs
        · exact ⟨.invalidFormat, by rw [parse_eval, if_neg hs, hm]⟩
  · intro s d e he
    rw [parse_eval] at he
    by_cases hs : pyStrip s = []
    · rw [if_pos hs] at he
      injection he with h'
      exact .inl h'.symm
    · rw [if_neg hs] at he
      cases hm : matchStorage (((pyStrip s).map toLowerChar).map commaToDot) with
      | none =>
          rw [hm] at he
          injection he with h'
          exact .inr h'.symm
      | some p =>
          obtain ⟨nt, ut⟩ := p
          rw [hm] at he
          exact absurd he (by simp)
  · intro s d numTok unitTok hm hal
    have hs : pyStrip s ≠ [] := by
      intro hs0
      rw [hs0] at hm
      simp only [List.map_nil] at hm
      have h0 : matchStorage ([] : List Char) = none := rfl
      rw [h0] at hm
      exact Option.noConfusion hm
    rw [parse_eval, if_neg hs, hm]
    simp only [hal, Option.getD_none]
  · rw [parse_eval, if_neg (by decide)]
    have hn : (((pyStrip "500".toList).map toLowerChar).map commaToDot)
        = "500".toList := by decide
    have hm : matchStorage "500".toList = some ("500".toList, []) := by decide
    have hv : decLitVal "500".toList = 500 := by
      have h1 : "500".toList.takeWhile (fun c => c != '.') = "500".toList := by decide
      have h2 : ("500".toList.dropWhile (fun c => c != '.')).drop 1 = [] := by decide
      have h3 : digitsToNat "500".toList = 500 := by decide
      simp only [decLitVal, h1, h2, h3]
      norm_num [digitsToNat]
    rw [hn, hm]
    simp only [hv]
    rfl
  · rw [parse_eval, if_pos (by decide)]
  · rw [parse_eval, if_neg (by decide)]
    have hn : (((pyStrip "abc".toList).map toLowerChar).map commaToDot)
        = "abc".toList := by decide
    have hm : matchStorage "abc".toList = none := by decide
    rw [hn, hm]
  · rw [parse_eval, if_neg (by decide)]
    have hn : (((pyStrip "-1 MB".toList).map toLowerChar).map commaToDot)
        = "-1 mb".toList := by decide
    have hm : matchStorage "-1 mb".toList = none := by decide
    rw [hn, hm]

/-- Witness for C8: an unrecognized unit token falls back to BYTES
silently. -/
theorem C8_parse_grammar_witness :
    StringParser.parse "500 xyz".toList none = .ok (decLitVal "500".toList, .BYTES) :=
  C8_parse_grammar.2.2.1 "500 xyz".toList none "500".toList "xyz".toList
    (by decide) (by decide)

theorem lookupKV_cons (k' : List Char) (v' : ℚ) (rest : List (List Char × ℚ))
    (s : List Char) :
    lookupKV ((k', v') :: rest) s = if k' = s then some v' else lookupKV rest s := rfl

theorem lookupKV_append_none {l1 l2 : List (List Char × ℚ)} {k : List Char}
    (h : lookupKV l1 k = none) : lookupKV (l1 ++ l2) k = lookupKV l2 k := by
  induction l1 with
  | nil => rfl
  | cons p rest ih =>
      obtain ⟨k', v'⟩ := p
      rw [lookupKV_cons] at h
      by_cases he : k' = k
      · rw [if_pos he] at h
        exact absurd h (by simp)
      · rw [if_neg he] at h
        rw [List.cons_append, lookupKV_cons, if_neg he]
        exact ih h

theorem lookupKV_singleton_ne {k k' : List Char} {v : ℚ} (h : k ≠ k') :
    lookupKV [(k, v)] k' = none := by
  rw [lookupKV_cons, if_neg h]
  rfl

/-- A cache hit returns the cached value and leaves the state — in
particular the eviction order — unchanged (FIFO, not LRU). -/
theorem step_hit (f : List Char → ℚ) (st : PerformanceManager) (k : List Char) (v : ℚ)
    (h : lookupKV st.decimal_cache k = some v) :
    PerformanceManager.get_cached_decimal f st k = .ok (st, v) := by
  unfold PerformanceManager.get_cached_decimal
  simp only [h]

theorem step_miss_insert (f : List Char → ℚ) (st : PerformanceManager) (k : List Char)
    (hk : lookupKV st.decimal_cache k = none)
    (hlt : st.decimal_cache.length < st.max_cache_size) :
    PerformanceManager.get_cached_decimal f st k
      = .ok (⟨st.max_cache_size, st.decimal_cache ++ [(k, f k)]⟩, f k) := by
  unfold PerformanceManager.get_cached_decimal
  simp only [hk]
  rw [if_neg (not_le.mpr hlt)]

theorem step_evict (f : List Char → ℚ) (st : PerformanceManager) (k : List Char)
    (p : List Char × ℚ) (rest : List (List Char × ℚ))
    (hk : lookupKV st.decimal_cache k = none)
    (hfull : st.max_cache_size ≤ st.decimal_cache.length)
    (hc : st.decimal_cache = p :: rest) :
    PerformanceManager.get_cached_decimal f st k
      = .ok (⟨st.max_cache_size, rest ++ [(k, f k)]⟩, f k) := by
  unfold PerformanceManager.get_cached_decimal
  simp only [hk]
  rw [if_pos hfull]
  simp only [hc]

theorem step_cases (f : List Char → ℚ) (st : PerformanceManager) (k : List Char)
    (st' : PerformanceManager) (v : ℚ)
    (h : PerformanceManager.get_cached_decimal f st k = .ok (st', v)) :
    st'.max_cache_size = st.max_cache_size ∧
    (st.decimal_cache.length ≤ st.max_cache_size →
      st'.decimal_cache.length ≤ st.max_cache_size) := by
  unfold PerformanceManager.get_cached_decimal at h
  cases hl : lookupKV st.decimal_cache k with
  | some w =>
      simp only [hl] at h
      injection h with h'
      have hst : st = st' := congrArg Prod.fst h'
      rw [← hst]
      exact ⟨rfl, fun hh => hh⟩
  | none =>
      simp only [hl] at h
      split at h
      · rename_i hfull
        cases hdc : st.decimal_cache with
        | nil =>
            rw [hdc] at h
            exact absurd h (by simp)
        | cons p rest =>
            rw [hdc] at h
            simp only at h
            injection h with h'
            have hst : st' = ⟨st.max_cache_size, rest ++ [(k, f k)]⟩ :=
              (congrArg Prod.fst h').symm
            rw [hst]
            refine ⟨rfl, fun hh => ?_⟩
            simp only [hdc, List.length_cons] at hh
            simp only [List.length_append, List.length_singleton]
            omega
      · rename_i hnf
        injection h with h'
        have hst : st' = ⟨st.max_cache_size, st.decimal_cache ++ [(k, f k)]⟩ :=
          (congrArg Prod.fst h').symm
        rw [hst]
        refine ⟨rfl, fun _ => ?_⟩
        simp only [List.length_append, List.length_singleton]
        omega

theorem runSeq_bound (f : List Char → ℚ) :
    ∀ (calls : List (List Char)) (st : PerformanceManager),
      st.decimal_cache.length ≤ st.max_cache_size →
      (runSeq f st calls).decimal_cache.length ≤ st.max_cache_size ∧
      (runSeq f st calls).max_cache_size = st.max_cache_size := by
  intro calls
  induction calls with
  | nil => intro st h; exact ⟨h, rfl⟩
  | cons k rest ih =>
      intro st h
      unfold runSeq
      cases hstep : PerformanceManager.get_cached_decimal f st k with
      | error e => exact ih st h
      | ok p =>
          obtain ⟨st', v⟩ := p
          obtain ⟨hcap, hlen⟩ := step_cases f st k st' v hstep
          have h' : st'.decimal_cache.length ≤ st'.max_cache_size := by
            rw [hcap]; exact hlen h
          obtain ⟨ih1, ih2⟩ := ih st' h'
          rw [hcap] at ih1 ih2
          exact ⟨ih1, ih2⟩

theorem runSeq_fill (f : List Char → ℚ) :
    ∀ (ks : List (List Char)) (st : PerformanceManager),
      ks.Nodup → (∀ k ∈ ks, lookupKV st.decimal_cache k = none) →
      st.decimal_cache.length + ks.length ≤ st.max_cache_size →
      runSeq f st ks
        = ⟨st.max_cache_size, st.decimal_cache ++ ks.map (fun s => (s, f s))⟩ := by
  intro ks
  induction ks with
  | nil => intro st _ _ _; simp [runSeq]
  | cons k rest ih =>
      intro st hnd hlk hlen
      have hk : lookupKV st.decimal_cache k = none := hlk k (by simp)
      have hlt : st.decimal_cache.length < st.max_cache_size := by
        simp only [List.length_cons] at hlen
        omega
      unfold runSeq
      rw [step_miss_insert f st k hk hlt]
      obtain ⟨hknr, hndr⟩ := List.nodup_cons.mp hnd
      show runSeq f ⟨st.max_cache_size, st.decimal_cache ++ [(k, f k)]⟩ rest
        = ⟨st.max_cache_size, st.decimal_cache ++ (k :: rest).map (fun s => (s, f s))⟩
      rw [ih ⟨st.max_cache_size, st.decimal_cache ++ [(k, f k)]⟩ hndr ?_ ?_]
      · simp [List.append_assoc]
      · intro k' hk'
        simp only
        rw [lookupKV_append_none (hlk k' (by simp [hk']))]
        exact lookupKV_singleton_ne (fun he => hknr (he ▸ hk')) 
      · simp only [List.length_append, List.length_singleton, List.length_cons,
          List.length_nil] at hlen ⊢
        omega

theorem lookupKV_map_self (f : List Char → ℚ) :
    ∀ (ks : List (List Char)) (k : List Char), k ∉ ks →
      lookupKV (ks.map (fun s => (s, f s))) k = none := by
  intro ks
  induction ks with
  | nil => intro k _; rfl
  | cons a rest ih =>
      intro k hk
      simp only [List.map_cons]
      unfold lookupKV
      rw [if_neg (fun he => hk (by rw [← he]; exact List.mem_cons_self a rest))]
      exact ih k (fun hm => hk (List.mem_cons_of_mem a hm))

theorem runSeq_append (f : List Char → ℚ) :
    ∀ (l1 l2 : List (List Char)) (st : PerformanceManager),
      runSeq f st (l1 ++ l2) = runSeq f (runSeq f st l1) l2 := by
  intro l1
  induction l1 with
  | nil => intro l2 st; rfl
  | cons k rest ih =>
      intro l2 st
      have hcons : ∀ (l : List (List Char)), runSeq f st (k :: l)
          = match PerformanceManager.get_cached_decimal f st k with
            | .ok (st', _) => runSeq f st' l
            | .error _ => runSeq f st l := fun l => rfl
      rw [List.cons_append, hcons (rest ++ l2), hcons rest]
      cases hstep : PerformanceManager.get_cached_decimal f st k with
      | error e => exact ih l2 st
      | ok p =>
          obtain ⟨st', v⟩ := p
          exact ih l2 st'

theorem runSeq_single (f : List Char → ℚ) (st : PerformanceManager) (k : List Char)
    (st2 : PerformanceManager) (v : ℚ)
    (h : PerformanceManager.get_cached_decimal f st k = .ok (st2, v)) :
    runSeq f st [k] = st2 := by
  have hcons : runSeq f st [k]
      = match PerformanceManager.get_cached_decimal f st k with
        | .ok (st', _) => runSeq f st' []
        | .error _ => runSeq f st [] := rfl
  rw [hcons, h]
  rfl

/-- C9: for every DecimalCache with capacity N the entry count never
exceeds N after any sequence of `get_cached_decimal` calls; inserting
`N + 1` distinct literals into an empty cache of capacity `N ≥ 1` evicts
exactly the first-inserted literal and no other (the final entries are
literals 2..N+1 in insertion order); and a cache hit leaves the state —
hence every entry's FIFO eviction position — unchanged. -/
theorem C9_cache_fifo :
    (∀ (f : List Char → ℚ) (cap : ℕ) (calls : List (List Char)),
        (runSeq f (PerformanceManager.mk0 cap) calls).decimal_cache.length ≤ cap) ∧
    (∀ (f : List Char → ℚ) (cap : ℕ) (ks : List (List Char)) (k : List Char),
        1 ≤ cap → ks.length = cap → (ks ++ [k]).Nodup →
        runSeq f (PerformanceManager.mk0 cap) (ks ++ [k])
          = ⟨cap, (ks.tail ++ [k]).map (fun s => (s, f s))⟩) ∧
    (∀ (f : List Char → ℚ) (st : PerformanceManager) (s : List Char) (v : ℚ),
        lookupKV st.decimal_cache s = some v →
        PerformanceManager.get_cached_decimal f st s = .ok (st, v)) := by
  refine ⟨?_, ?_, ?_⟩
  · intro f cap calls
    exact (runSeq_bound f calls (PerformanceManager.mk0 cap)
      (by simp [PerformanceManager.mk0])).1
  · intro f cap ks k hcap hlen hnd
    have hnd1 : ks.Nodup := (List.nodup_append.mp hnd).1
    have hkn : k ∉ ks := by
      intro hc
      exact (List.nodup_append.mp hnd).2.2 hc (by simp)
    have hfill : runSeq f (PerformanceManager.mk0 cap) ks
        = ⟨cap, [] ++ ks.map (fun s => (s, f s))⟩ :=
      runSeq_fill f ks (PerformanceManager.mk0 cap) hnd1
        (fun k' _ => rfl) (by simp [PerformanceManager.mk0, hlen])
    simp only [List.nil_append] at hfill
    obtain ⟨k0, rest, hks⟩ : ∃ k0 rest, ks = k0 :: rest := by
      cases ks with
      | nil => rw [← hlen] at hcap; simp at hcap
      | cons a b => exact ⟨a, b, rfl⟩
    subst hks
    rw [runSeq_append f (k0 :: rest) [k] (PerformanceManager.mk0 cap), hfill]
    have hlk : lookupKV (((k0 :: rest).map (fun s => (s, f s)))) k = none :=
      lookupKV_map_self f (k0 :: rest) k hkn
    have hev := step_evict f ⟨cap, (k0 :: rest).map (fun s => (s, f s))⟩ k
      (k0, f k0) (rest.map (fun s => (s, f s))) hlk
      (by simp only [List.length_map, List.length_cons]
          rw [← hlen]
          simp)
      (by simp)
    rw [runSeq_single f _ k _ _ hev]
    simp [List.map_append]
  · intro f st s v h
    exact step_hit f st s v h

/-- Witness for C9: capacity 2, literals "1","2","3" — the final cache
holds exactly "2","3" in order; "1" was evicted. -/
theorem C9_cache_fifo_witness :
    runSeq (fun _ => (0 : ℚ)) (PerformanceManager.mk0 2)
        (["1".toList, "2".toList] ++ ["3".toList])
      = ⟨2, (["1".toList, "2".toList].tail ++ ["3".toList]).map
          (fun s => (s, (0 : ℚ)))⟩ :=
  C9_cache_fifo.2.1 (fun _ => (0 : ℚ)) 2 ["1".toList, "2".toList] "3".toList
    (by norm_num) (by decide) (by decide)

/-- C10: for every finite non-negative float input, the constructor stores
the decimal reading of the float's (shortest round-trip) repr — the value
of `Decimal(str(value))` — not the float's exact binary expansion. -/
theorem C10_float_via_repr (b r : ℚ) (h : floatReprSpec b r) (u : StorageUnit)
    (hb : 0 ≤ b) :
    StorageValue.init (.pfloat (.finite b r h)) u = .ok ⟨.fin r, u⟩ := by
  have hfalse : decide (b < 0) = false := decide_eq_false (not_lt.mpr hb)
  simp only [StorageValue.init, pyLtZero, hfalse]

theorem roundToDouble_tenth :
    roundToDouble (1 / 10 : ℚ) = 3602879701896397 / 36028797018963968 := by
  have hq : (1 / 10 : ℚ) ≠ 0 := by norm_num
  have hbe : bexp 2 (1 / 10 : ℚ) = -4 := by
    apply bexp_eq 2 (by norm_num) _ hq
    · rw [abs_of_pos (by norm_num : (0 : ℚ) < 1 / 10), bpow_eq_zpow 2 (by norm_num)]
      push_cast
      norm_num
    · rw [abs_of_pos (by norm_num : (0 : ℚ) < 1 / 10), bpow_eq_zpow 2 (by norm_num)]
      push_cast
      norm_num
  have hnotsub : ¬ (bexp 2 (1 / 10 : ℚ) < -1022) := by rw [hbe]; norm_num
  unfold roundToDouble
  rw [if_neg hq, if_neg hnotsub]
  unfold roundSig
  rw [if_neg hq, hbe]
  have e1 : ((53 : ℕ) : ℤ) - 1 - (-4) = ((56 : ℕ) : ℤ) := by norm_num
  have e2 : (-4 : ℤ) - (((53 : ℕ) : ℤ) - 1) = -((56 : ℕ) : ℤ) := by norm_num
  rw [e1, e2, bpow_natCast 2 (by norm_num), bpow_neg_natCast 2 (by norm_num)]
  have hr : rnd ((1 / 10 : ℚ) * ((2 : ℕ) : ℚ) ^ 56) = 7205759403792793 + 1 := by
    apply rnd_eq_of_half_lt
    · push_cast
      norm_num
    · push_cast
      norm_num
  rw [hr]
  push_cast
  norm_num

theorem mk110_eq : (Rat.mk' 1 10 : ℚ) = 1 / 10 := by
  have h := Rat.num_div_den (Rat.mk' 1 10)
  rw [← h]
  show ((1 : ℤ) : ℚ) / ((10 : ℕ) : ℚ) = 1 / 10
  push_cast
  ring

theorem decDigits_mk110 : decDigits (Rat.mk' 1 10) = 1 := by decide

/-- The float `0.1`: binary value `3602879701896397 / 2^55`, repr reading
exactly `1/10` — the shortest decimal (one significant digit) that rounds
back to it. -/
theorem floatReprSpec_tenth :
    floatReprSpec (3602879701896397 / 36028797018963968) (Rat.mk' 1 10) := by
  refine ⟨?_, by decide, ?_⟩
  · rw [mk110_eq]
    exact roundToDouble_tenth
  · intro r' hdec hlt
    rw [decDigits_mk110] at hlt
    have h0 : decDigits r' = 0 := by omega
    have hr0 : r' = 0 := decDigits_eq_zero hdec h0
    rw [hr0, roundToDouble_zero]
    norm_num

/-- Witness for C10: constructing from the float `0.1` stores exactly the
decimal `0.1` (= 1/10), which differs from the float's exact binary
expansion `0.1000000000000000055511151231257827…`. -/
theorem C10_float_via_repr_witness :
    StorageValue.init (.pfloat (.finite (3602879701896397 / 36028797018963968)
        (Rat.mk' 1 10) floatReprSpec_tenth)) .MB
      = .ok ⟨.fin (Rat.mk' 1 10), .MB⟩ ∧
    (Rat.mk' 1 10 : ℚ) ≠ 3602879701896397 / 36028797018963968 := by
  constructor
  · exact C10_float_via_repr _ _ floatReprSpec_tenth .MB (by norm_num)
  · rw [mk110_eq]
    norm_num
